import Mathlib

/-!
Verification of the core geometry library of a grid roguelike engine
(`geo.ts`): packed points, the symmetric line-of-sight rasterizer, the
open-addressing hash table, and the A* pathfinder.

Points are embedded as their packed integer representation (the TS code
stores a point as a single 30-bit integer: low 15 bits are `x + 2^14`,
high bits are `y + 2^14`).  JavaScript bitwise operators on the values
the library actually produces coincide with Euclidean `%` and `/` on
`Int` (the packed values are non-negative and below `2^30`, and for the
accessors `a & 0x7fff = a % 32768` and `a >> 15 = a / 32768` hold for
every 32-bit `a` under Euclidean semantics), so the embedding uses plain
integer arithmetic.
-/

namespace Geo

/-- `kOffset = 1 << 14`: the offset added to each coordinate before packing. -/
def kOffset : Int := 16384

/-- `kOrigin = (kOffset << 15) + kOffset`: the packed representation of (0, 0). -/
def kOrigin : Int := kOffset * 32768 + kOffset

namespace Point

/-- `Point.make(x, y) = kOrigin + x + (y << 15)`.  For in-range `y` the
JavaScript shift `y << 15` is exact multiplication by `2^15 = 32768`. -/
def make (x y : Int) : Int := kOrigin + x + y * 32768

/-- `Point.x(a) = (a & 0x7fff) - kOffset`; `a & 0x7fff` is `a % 32768`
(Euclidean remainder) for every 32-bit `a`. -/
def x (a : Int) : Int := a % 32768 - kOffset

/-- `Point.y(a) = (a >> 15) - kOffset`; the arithmetic shift is floor
division by `32768`, which is Euclidean division for this positive divisor. -/
def y (a : Int) : Int := a / 32768 - kOffset

/-- `Point.add(a, b) = a + (b - kOrigin)` on packed representations. -/
def add (a b : Int) : Int := a + (b - kOrigin)

/-- `Point.sub(a, b) = a - (b - kOrigin)` on packed representations. -/
def sub (a b : Int) : Int := a - (b - kOrigin)

/-- `Point.key` is the identity on the packed representation. -/
def key (a : Int) : Int := a

end Point

/-- The cell classification returned by the occupancy callback. -/
inductive Status where
  | FREE
  | BLOCKED
  | OCCUPIED
deriving DecidableEq, Repr

namespace Direction

/-- `Direction.all = [n, ne, e, se, s, sw, w, nw]`, the canonical neighbor
order used by the A* loop; index `i` and index `(i + 4) % 8` are opposite. -/
def all : List Int :=
  [Point.make 0 (-1), Point.make 1 (-1), Point.make 1 0, Point.make 1 1,
   Point.make 0 1, Point.make (-1) 1, Point.make (-1) 0, Point.make (-1) (-1)]

end Direction

/-- The shared inner loop of `LOS`: starting from dominant-axis coordinate
`maj`, minor-axis coordinate `mnr` and error accumulator `test`, walk `n`
steps.  Each step advances `maj` by `smaj`, subtracts the minor delta `dmin`
from `test`, and when `test` drops below zero advances `mnr` by `smin` and
adds the dominant delta `dmaj` back.  Returns the list of visited
(maj, mnr) pairs, one per step. -/
def losRun (dmaj dmin smaj smin : Int) : Nat → Int → Int → Int → List (Int × Int)
  | 0, _, _, _ => []
  | n + 1, maj, mnr, test =>
    let maj2 := maj + smaj
    let test2 := test - dmin
    if test2 < 0 then
      (maj2, mnr + smin) :: losRun dmaj dmin smaj smin n maj2 (mnr + smin) (test2 + dmaj)
    else
      (maj2, mnr) :: losRun dmaj dmin smaj smin n maj2 mnr test2

/-- `LOS(a, b)`: the Tran-Thong style rasterized line from `a` to `b`,
inclusive of both endpoints.  The x-dominant branch is taken when
`x_diff >= y_diff`; the initial error is `floor((diff + 0) / 2)`. -/
def LOS (a b : Int) : List Int :=
  let xa := Point.x a
  let ya := Point.y a
  let xb := Point.x b
  let yb := Point.y b
  let x_diff := |xa - xb|
  let y_diff := |ya - yb|
  let x_sign : Int := if xb < xa then -1 else 1
  let y_sign : Int := if yb < ya then -1 else 1
  if x_diff ≥ y_diff then
    a :: (losRun x_diff y_diff x_sign y_sign x_diff.toNat xa ya (x_diff / 2)).map
      (fun p => Point.make p.1 p.2)
  else
    a :: (losRun y_diff x_diff y_sign x_sign y_diff.toNat ya xa (y_diff / 2)).map
      (fun p => Point.make p.2 p.1)

/-- Two packed points are adjacent when they differ by one of the 8 unit
direction vectors, i.e. by a single-step (possibly diagonal) move. -/
def Adjacent (a b : Int) : Prop := ∃ d ∈ Direction.all, b = Point.add a d

instance (a b : Int) : Decidable (Adjacent a b) := by
  unfold Adjacent; infer_instance

/-- Decoding then re-packing is the identity on every packed value. -/
lemma point_repack (a : Int) : Point.make (Point.x a) (Point.y a) = a := by
  unfold Point.make Point.x Point.y kOrigin kOffset
  omega

lemma point_x_range (a : Int) : -16384 ≤ Point.x a ∧ Point.x a ≤ 16383 := by
  unfold Point.x kOffset
  omega

lemma point_eq_of_coords (a b : Int) (hx : Point.x a = Point.x b)
    (hy : Point.y a = Point.y b) : a = b := by
  unfold Point.x kOffset at hx
  unfold Point.y kOffset at hy
  omega

lemma point_make_add (x1 y1 dx dy : Int) :
    Point.make (x1 + dx) (y1 + dy) = Point.add (Point.make x1 y1) (Point.make dx dy) := by
  unfold Point.make Point.add kOrigin kOffset
  ring

lemma losRun_length (dmaj dmin smaj smin : Int) :
    ∀ (n : Nat) (maj mnr test : Int),
      (losRun dmaj dmin smaj smin n maj mnr test).length = n := by
  intro n
  induction n with
  | zero => intro maj mnr test; simp [losRun]
  | succ m ih =>
    intro maj mnr test
    unfold losRun
    dsimp only
    split <;> simp [ih]

/-- The state evolution of the `LOS` inner loop: after `n` steps the dominant
coordinate has advanced by `n * smaj` and the minor coordinate by `w * smin`
for the wrap count `w`, with the error accumulator staying inside `[0, dmaj)`. -/
lemma losRun_getLastD (dmaj dmin smaj smin : Int) (h0 : 0 ≤ dmin) (h1 : dmin ≤ dmaj) :
    ∀ (n : Nat) (maj mnr test : Int), 0 ≤ test → test < dmaj →
      ∃ w : Int, 0 ≤ w ∧
        (losRun dmaj dmin smaj smin n maj mnr test).getLastD (maj, mnr) =
          (maj + n * smaj, mnr + w * smin) ∧
        0 ≤ test - n * dmin + w * dmaj ∧ test - n * dmin + w * dmaj < dmaj := by
  intro n
  induction n with
  | zero =>
    intro maj mnr test ht0 ht1
    exact ⟨0, le_refl 0, by simp [losRun, List.getLastD], by simpa using ht0,
      by simpa using ht1⟩
  | succ m ih =>
    intro maj mnr test ht0 ht1
    unfold losRun
    dsimp only
    split
    · rename_i hwrap
      obtain ⟨w, hw0, hlast, hlo, hhi⟩ :=
        ih (maj + smaj) (mnr + smin) (test - dmin + dmaj) (by omega) (by omega)
      refine ⟨w + 1, by omega, ?_, ?_, ?_⟩
      · rw [List.getLastD_cons, hlast]
        push_cast
        simp only [Prod.mk.injEq]
        constructor <;> ring
      · push_cast
        nlinarith [hlo]
      · push_cast
        nlinarith [hhi]
    · rename_i hnowrap
      obtain ⟨w, hw0, hlast, hlo, hhi⟩ :=
        ih (maj + smaj) mnr (test - dmin) (by omega) (by omega)
      refine ⟨w, hw0, ?_, ?_, ?_⟩
      · rw [List.getLastD_cons, hlast]
        push_cast
        simp only [Prod.mk.injEq]
        constructor <;> ring
      · push_cast
        nlinarith [hlo]
      · push_cast
        nlinarith [hhi]

/-- If two error values in `[0, D)` differ by a multiple of `D`, the
multiplier vanishes: used to pin the total wrap count at `dmin`. -/
lemma wrap_count_eq (D d t1 t2 w : Int) (hD : 0 < D) (ht1 : 0 ≤ t1) (ht2 : t1 < D)
    (ht3 : 0 ≤ t2) (ht4 : t2 < D) (heq : t2 = t1 - D * d + w * D) : w = d := by
  have h5 : (w - d) * D = t2 - t1 := by ring_nf; linarith [heq]
  rcases lt_trichotomy (w - d) 0 with h | h | h
  · have : (w - d) * D ≤ (-1) * D := by
      apply mul_le_mul_of_nonneg_right _ (le_of_lt hD)
      omega
    omega
  · omega
  · have : 1 * D ≤ (w - d) * D := by
      apply mul_le_mul_of_nonneg_right _ (le_of_lt hD)
      omega
    omega

lemma getLast?_cons_eq (a : α) (l : List α) : (a :: l).getLast? = some (l.getLastD a) := by
  induction l generalizing a with
  | nil => simp [List.getLastD]
  | cons x xs ih => rw [List.getLast?_cons_cons, ih, List.getLastD_cons]

lemma getLastD_map (f : α → β) (l : List α) (d : α) :
    (l.map f).getLastD (f d) = f (l.getLastD d) := by
  induction l generalizing d with
  | nil => simp [List.getLastD]
  | cons x xs ih => rw [List.map_cons, List.getLastD_cons, List.getLastD_cons, ih]

/-- For a non-empty list, `getLastD` after `map` is `f` of `getLastD`,
for any defaults. -/
lemma getLastD_map_ne (f : α → β) (l : List α) (d : β) (e : α) (h : l ≠ []) :
    (l.map f).getLastD d = f (l.getLastD e) := by
  rw [List.getLastD_eq_getLast?, List.getLastD_eq_getLast?, List.getLast?_map]
  cases hq : l.getLast? with
  | none => exact absurd (List.getLast?_eq_none_iff.mp hq) h
  | some z => simp

/-- The line returned by `LOS` ends at its second argument. -/
lemma LOS_last (a b : Int) : (LOS a b).getLast? = some b := by
  have hrb := point_repack b
  unfold LOS
  dsimp only
  split <;> rename_i hbr
  · -- x-dominant branch
    rw [getLast?_cons_eq]
    have habs0 : 0 ≤ |Point.x a - Point.x b| := abs_nonneg _
    have habs1 : 0 ≤ |Point.y a - Point.y b| := abs_nonneg _
    rcases eq_or_lt_of_le habs0 with hzero | hpos
    · have hy0 : |Point.y a - Point.y b| = 0 := by omega
      rw [show |Point.x a - Point.x b|.toNat = 0 from by omega]
      simp only [losRun, List.map_nil, List.getLastD]
      rcases abs_cases (Point.x a - Point.x b) with ⟨hax, _⟩ | ⟨hax, _⟩ <;>
        rcases abs_cases (Point.y a - Point.y b) with ⟨hay, _⟩ | ⟨hay, _⟩ <;>
        exact congrArg some (point_eq_of_coords a b (by omega) (by omega))
    · obtain ⟨w, hw0, hlast, hlo, hhi⟩ :=
        losRun_getLastD |Point.x a - Point.x b| |Point.y a - Point.y b|
          (if Point.x b < Point.x a then -1 else 1) (if Point.y b < Point.y a then -1 else 1)
          habs1 hbr |Point.x a - Point.x b|.toNat (Point.x a) (Point.y a)
          (|Point.x a - Point.x b| / 2) (by omega) (by omega)
      rw [Int.toNat_of_nonneg habs0] at hlast hlo hhi
      have hw : w = |Point.y a - Point.y b| :=
        wrap_count_eq |Point.x a - Point.x b| |Point.y a - Point.y b|
          (|Point.x a - Point.x b| / 2) _ w hpos (by omega) (by omega) hlo hhi (by ring)
      subst hw
      have hne : losRun |Point.x a - Point.x b| |Point.y a - Point.y b|
          (if Point.x b < Point.x a then -1 else 1) (if Point.y b < Point.y a then -1 else 1)
          |Point.x a - Point.x b|.toNat (Point.x a) (Point.y a)
          (|Point.x a - Point.x b| / 2) ≠ [] := by
        intro hcon
        have := losRun_length |Point.x a - Point.x b| |Point.y a - Point.y b|
          (if Point.x b < Point.x a then -1 else 1) (if Point.y b < Point.y a then -1 else 1)
          |Point.x a - Point.x b|.toNat (Point.x a) (Point.y a) (|Point.x a - Point.x b| / 2)
        rw [hcon] at this
        simp at this
        omega
      rw [getLastD_map_ne _ _ _ (Point.x a, Point.y a) hne, hlast]
      simp only
      have hxe : Point.x a + |Point.x a - Point.x b| *
          (if Point.x b < Point.x a then (-1 : Int) else 1) = Point.x b := by
        split_ifs with h <;>
          rcases abs_cases (Point.x a - Point.x b) with ⟨h2, _⟩ | ⟨h2, _⟩ <;> omega
      have hye : Point.y a + |Point.y a - Point.y b| *
          (if Point.y b < Point.y a then (-1 : Int) else 1) = Point.y b := by
        split_ifs with h <;>
          rcases abs_cases (Point.y a - Point.y b) with ⟨h2, _⟩ | ⟨h2, _⟩ <;> omega
      rw [hxe, hye, hrb]
  · -- y-dominant branch
    rw [getLast?_cons_eq]
    have habs0 : 0 ≤ |Point.x a - Point.x b| := abs_nonneg _
    have habs1 : 0 ≤ |Point.y a - Point.y b| := abs_nonneg _
    have hpos : 0 < |Point.y a - Point.y b| := by omega
    obtain ⟨w, hw0, hlast, hlo, hhi⟩ :=
      losRun_getLastD |Point.y a - Point.y b| |Point.x a - Point.x b|
        (if Point.y b < Point.y a then -1 else 1) (if Point.x b < Point.x a then -1 else 1)
        habs0 (by omega) |Point.y a - Point.y b|.toNat (Point.y a) (Point.x a)
        (|Point.y a - Point.y b| / 2) (by omega) (by omega)
    rw [Int.toNat_of_nonneg habs1] at hlast hlo hhi
    have hw : w = |Point.x a - Point.x b| :=
      wrap_count_eq |Point.y a - Point.y b| |Point.x a - Point.x b|
        (|Point.y a - Point.y b| / 2) _ w hpos (by omega) (by omega) hlo hhi (by ring)
    subst hw
    have hne : losRun |Point.y a - Point.y b| |Point.x a - Point.x b|
        (if Point.y b < Point.y a then -1 else 1) (if Point.x b < Point.x a then -1 else 1)
        |Point.y a - Point.y b|.toNat (Point.y a) (Point.x a)
        (|Point.y a - Point.y b| / 2) ≠ [] := by
      intro hcon
      have := losRun_length |Point.y a - Point.y b| |Point.x a - Point.x b|
        (if Point.y b < Point.y a then -1 else 1) (if Point.x b < Point.x a then -1 else 1)
        |Point.y a - Point.y b|.toNat (Point.y a) (Point.x a) (|Point.y a - Point.y b| / 2)
      rw [hcon] at this
      simp at this
      omega
    rw [getLastD_map_ne _ _ _ (Point.y a, Point.x a) hne, hlast]
    simp only
    have hxe : Point.x a + |Point.x a - Point.x b| *
        (if Point.x b < Point.x a then (-1 : Int) else 1) = Point.x b := by
      split_ifs with h <;>
        rcases abs_cases (Point.x a - Point.x b) with ⟨h2, _⟩ | ⟨h2, _⟩ <;> omega
    have hye : Point.y a + |Point.y a - Point.y b| *
        (if Point.y b < Point.y a then (-1 : Int) else 1) = Point.y b := by
      split_ifs with h <;>
        rcases abs_cases (Point.y a - Point.y b) with ⟨h2, _⟩ | ⟨h2, _⟩ <;> omega
    rw [hxe, hye, hrb]

/-- A unit-delta step between packed `make` values is an `Adjacent` move. -/
lemma adjacent_of_delta (u v dx dy : Int) (hdx : dx = 0 ∨ dx = 1 ∨ dx = -1)
    (hdy : dy = 0 ∨ dy = 1 ∨ dy = -1) (hne : ¬(dx = 0 ∧ dy = 0)) :
    Adjacent (Point.make u v) (Point.make (u + dx) (v + dy)) := by
  refine ⟨Point.make dx dy, ?_, by unfold Point.make Point.add kOrigin kOffset; ring⟩
  rcases hdx with h | h | h <;> rcases hdy with g | g | g <;> subst h <;> subst g
  · exact absurd ⟨rfl, rfl⟩ hne
  all_goals decide

/-- Consecutive `losRun` states differ by one dominant step and at most one
minor step. -/
lemma losRun_chain (dmaj dmin smaj smin : Int) :
    ∀ (n : Nat) (maj mnr test : Int),
      List.Chain' (fun p q : Int × Int => q.1 = p.1 + smaj ∧ (q.2 = p.2 ∨ q.2 = p.2 + smin))
        ((maj, mnr) :: losRun dmaj dmin smaj smin n maj mnr test) := by
  intro n
  induction n with
  | zero => intro maj mnr test; simp [losRun]
  | succ m ih =>
    intro maj mnr test
    unfold losRun
    dsimp only
    split
    · exact List.chain'_cons.mpr ⟨⟨rfl, Or.inr rfl⟩, ih _ _ _⟩
    · exact List.chain'_cons.mpr ⟨⟨rfl, Or.inl rfl⟩, ih _ _ _⟩

/-- Every `LOS` line is connected by single-step (including diagonal) moves. -/
lemma LOS_chain (a b : Int) : List.Chain' Adjacent (LOS a b) := by
  unfold LOS
  dsimp only
  split <;> rename_i hbr
  · have hrw : a :: (losRun |Point.x a - Point.x b| |Point.y a - Point.y b|
        (if Point.x b < Point.x a then -1 else 1) (if Point.y b < Point.y a then -1 else 1)
        |Point.x a - Point.x b|.toNat (Point.x a) (Point.y a)
        (|Point.x a - Point.x b| / 2)).map (fun p : Int × Int => Point.make p.1 p.2) =
        ((Point.x a, Point.y a) :: losRun |Point.x a - Point.x b| |Point.y a - Point.y b|
          (if Point.x b < Point.x a then -1 else 1) (if Point.y b < Point.y a then -1 else 1)
          |Point.x a - Point.x b|.toNat (Point.x a) (Point.y a)
          (|Point.x a - Point.x b| / 2)).map (fun p : Int × Int => Point.make p.1 p.2) := by
      rw [List.map_cons]
      simp only [point_repack]
    rw [hrw]
    refine List.chain'_map_of_chain' _ ?_ (losRun_chain _ _ _ _ _ _ _ _)
    intro p q ⟨h1, h2⟩
    rcases h2 with h2 | h2
    · have := adjacent_of_delta p.1 p.2 (if Point.x b < Point.x a then -1 else 1) 0
        (by split_ifs <;> simp) (Or.inl rfl) (by split_ifs <;> simp)
      convert this using 2 <;> omega
    · have := adjacent_of_delta p.1 p.2 (if Point.x b < Point.x a then -1 else 1)
        (if Point.y b < Point.y a then -1 else 1)
        (by split_ifs <;> simp) (by split_ifs <;> simp) (by split_ifs <;> simp)
      convert this using 2 <;> omega
  · have hrw : a :: (losRun |Point.y a - Point.y b| |Point.x a - Point.x b|
        (if Point.y b < Point.y a then -1 else 1) (if Point.x b < Point.x a then -1 else 1)
        |Point.y a - Point.y b|.toNat (Point.y a) (Point.x a)
        (|Point.y a - Point.y b| / 2)).map (fun p : Int × Int => Point.make p.2 p.1) =
        ((Point.y a, Point.x a) :: losRun |Point.y a - Point.y b| |Point.x a - Point.x b|
          (if Point.y b < Point.y a then -1 else 1) (if Point.x b < Point.x a then -1 else 1)
          |Point.y a - Point.y b|.toNat (Point.y a) (Point.x a)
          (|Point.y a - Point.y b| / 2)).map (fun p : Int × Int => Point.make p.2 p.1) := by
      rw [List.map_cons]
      simp only [point_repack]
    rw [hrw]
    refine List.chain'_map_of_chain' _ ?_ (losRun_chain _ _ _ _ _ _ _ _)
    intro p q ⟨h1, h2⟩
    rcases h2 with h2 | h2
    · have := adjacent_of_delta p.2 p.1 0 (if Point.y b < Point.y a then -1 else 1)
        (Or.inl rfl) (by split_ifs <;> simp) (by split_ifs <;> simp)
      convert this using 2 <;> omega
    · have := adjacent_of_delta p.2 p.1 (if Point.x b < Point.x a then -1 else 1)
        (if Point.y b < Point.y a then -1 else 1)
        (by split_ifs <;> simp) (by split_ifs <;> simp) (by split_ifs <;> simp)
      convert this using 2 <;> omega

/-- Position of each cell produced by the `LOS` inner loop: `k` steps along
the dominant axis (`1 ≤ k ≤ n`) and `w` wraps along the minor axis, with the
error-accumulator inequality that bounds `w`. -/
lemma losRun_mem (dmaj dmin smaj smin : Int) (h0 : 0 ≤ dmin) (h1 : dmin ≤ dmaj) :
    ∀ (n : Nat) (maj mnr test : Int), 0 ≤ test → test < dmaj →
      ∀ p ∈ losRun dmaj dmin smaj smin n maj mnr test,
        ∃ k w : Int, 1 ≤ k ∧ k ≤ n ∧ 0 ≤ w ∧
          w * dmaj ≤ dmaj - 1 - test + k * dmin ∧
          p.1 = maj + k * smaj ∧ p.2 = mnr + w * smin := by
  intro n
  induction n with
  | zero => intro maj mnr test _ _ p hp; simp [losRun] at hp
  | succ m ih =>
    intro maj mnr test ht0 ht1 p hp
    unfold losRun at hp
    dsimp only at hp
    split at hp
    · rename_i hwrap
      rcases List.mem_cons.mp hp with hhead | htail
      · refine ⟨1, 1, le_refl 1, by push_cast; omega, by omega, by nlinarith, ?_, ?_⟩ <;>
          (rw [hhead]; push_cast; ring)
      · obtain ⟨k, w, hk1, hk2, hw0, hineq, hp1, hp2⟩ :=
          ih (maj + smaj) (mnr + smin) (test - dmin + dmaj) (by omega) (by omega) p htail
        have e1 : (w + 1) * dmaj = w * dmaj + dmaj := by ring
        have e2 : (k + 1) * dmin = k * dmin + dmin := by ring
        refine ⟨k + 1, w + 1, by omega, by push_cast; push_cast at hk2; omega, by omega,
          by linarith, by rw [hp1]; ring, by rw [hp2]; ring⟩
    · rename_i hnowrap
      rcases List.mem_cons.mp hp with hhead | htail
      · refine ⟨1, 0, le_refl 1, by push_cast; omega, le_refl 0, by nlinarith, ?_, ?_⟩ <;>
          (rw [hhead]; push_cast; ring)
      · obtain ⟨k, w, hk1, hk2, hw0, hineq, hp1, hp2⟩ :=
          ih (maj + smaj) mnr (test - dmin) (by omega) (by omega) p htail
        have e2 : (k + 1) * dmin = k * dmin + dmin := by ring
        refine ⟨k + 1, w, by omega, by push_cast; push_cast at hk2; omega, hw0,
          by linarith, by rw [hp1]; ring, by rw [hp2]⟩

/-- The wrap count of any loop cell is at most the minor delta. -/
lemma wrap_le_dmin (dmaj dmin test k w : Int) (h0 : 0 ≤ dmin) (h1 : dmin ≤ dmaj)
    (ht0 : 0 ≤ test) (hk : k ≤ dmaj) (hw0 : 0 ≤ w)
    (hin : w * dmaj ≤ dmaj - 1 - test + k * dmin) : w ≤ dmin := by
  by_contra hcon
  have hwge : dmin + 1 ≤ w := by omega
  have h2 : (dmin + 1) * dmaj ≤ w * dmaj :=
    mul_le_mul_of_nonneg_right hwge (by omega)
  have h3 : k * dmin ≤ dmaj * dmin := mul_le_mul_of_nonneg_right hk h0
  nlinarith

/-- Packed `make` values are equal exactly when the coordinate deltas cancel. -/
lemma make_eq_lin (x1 y1 x2 y2 : Int) (h : Point.make x1 y1 = Point.make x2 y2) :
    x1 - x2 + (y1 - y2) * 32768 = 0 := by
  unfold Point.make kOrigin kOffset at h
  omega

/-- No cell of `LOS a b` after the head equals `a`: the dominant coordinate
strictly advances and minor-axis wraps cannot cancel a sub-32768 offset. -/
lemma LOS_drop_ne (a b : Int) : ∀ p ∈ (LOS a b).drop 1, p ≠ a := by
  have hxa := point_x_range a
  have hxb := point_x_range b
  have hdx : |Point.x a - Point.x b| ≤ 32767 := abs_le.mpr ⟨by omega, by omega⟩
  have habs0 : 0 ≤ |Point.x a - Point.x b| := abs_nonneg _
  have habs1 : 0 ≤ |Point.y a - Point.y b| := abs_nonneg _
  intro p hp heq
  unfold LOS at hp
  dsimp only at hp
  split at hp <;> rename_i hbr <;> rw [List.drop_succ_cons, List.drop_zero] at hp
  · obtain ⟨q, hq, hfq⟩ := List.mem_map.mp hp
    rcases eq_or_lt_of_le habs0 with hz | hpos
    · rw [show |Point.x a - Point.x b|.toNat = 0 from by omega] at hq
      simp [losRun] at hq
    · obtain ⟨k, w, hk1, hk2, hw0, hineq, hq1, hq2⟩ :=
        losRun_mem _ _ _ _ habs1 hbr _ _ _ _ (by omega) (by omega) q hq
      rw [Int.toNat_of_nonneg habs0] at hk2
      have hqa : Point.make q.1 q.2 = Point.make (Point.x a) (Point.y a) := by
        rw [hfq, heq, point_repack]
      have hlin := make_eq_lin _ _ _ _ hqa
      rw [hq1, hq2] at hlin
      have hmaj : (if Point.x b < Point.x a then (-1 : Int) else 1) = 1 ∨
          (if Point.x b < Point.x a then (-1 : Int) else 1) = -1 := by
        split_ifs <;> simp
      have hmin : (if Point.y b < Point.y a then (-1 : Int) else 1) = 1 ∨
          (if Point.y b < Point.y a then (-1 : Int) else 1) = -1 := by
        split_ifs <;> simp
      rcases hmaj with hs | hs <;> rcases hmin with hs2 | hs2 <;>
        rw [hs, hs2] at hlin <;> omega
  · obtain ⟨q, hq, hfq⟩ := List.mem_map.mp hp
    push_neg at hbr
    obtain ⟨k, w, hk1, hk2, hw0, hineq, hq1, hq2⟩ :=
      losRun_mem _ _ _ _ habs0 (le_of_lt hbr) _ _ _ _ (by omega) (by omega) q hq
    rw [Int.toNat_of_nonneg habs1] at hk2
    have hwle : w ≤ |Point.x a - Point.x b| :=
      wrap_le_dmin |Point.y a - Point.y b| |Point.x a - Point.x b|
        (|Point.y a - Point.y b| / 2) k w habs0 (le_of_lt hbr) (by omega) hk2 hw0 hineq
    have hqa : Point.make q.2 q.1 = Point.make (Point.x a) (Point.y a) := by
      rw [hfq, heq, point_repack]
    have hlin := make_eq_lin _ _ _ _ hqa
    rw [hq1, hq2] at hlin
    have hmaj : (if Point.y b < Point.y a then (-1 : Int) else 1) = 1 ∨
        (if Point.y b < Point.y a then (-1 : Int) else 1) = -1 := by
      split_ifs <;> simp
    have hmin : (if Point.x b < Point.x a then (-1 : Int) else 1) = 1 ∨
        (if Point.x b < Point.x a then (-1 : Int) else 1) = -1 := by
      split_ifs <;> simp
    rcases hmaj with hs | hs <;> rcases hmin with hs2 | hs2 <;>
      rw [hs, hs2] at hlin <;> omega

/-- `LOS a b` always starts with `a`. -/
lemma LOS_cons (a b : Int) : ∃ l, LOS a b = a :: l := by
  unfold LOS
  dsimp only
  split
  · exact ⟨_, rfl⟩
  · exact ⟨_, rfl⟩

/-- The length of the rasterized line is the dominant delta plus one. -/
lemma LOS_length (a b : Int) : (LOS a b).length =
    (max |Point.x a - Point.x b| |Point.y a - Point.y b|).toNat + 1 := by
  unfold LOS
  dsimp only
  split <;> rename_i hbr
  · simp only [List.length_cons, List.length_map, losRun_length]
    rw [max_eq_left hbr]
  · push_neg at hbr
    simp only [List.length_cons, List.length_map, losRun_length]
    rw [max_eq_right hbr.le]

/-- Adjacency of packed points is symmetric: every direction has its
opposite among the 8. -/
lemma adjacent_symm (u v : Int) (h : Adjacent u v) : Adjacent v u := by
  obtain ⟨d, hd, rfl⟩ := h
  fin_cases hd
  · exact ⟨Point.make 0 1, by decide, by unfold Point.add Point.make kOrigin kOffset; ring⟩
  · exact ⟨Point.make (-1) 1, by decide, by unfold Point.add Point.make kOrigin kOffset; ring⟩
  · exact ⟨Point.make (-1) 0, by decide, by unfold Point.add Point.make kOrigin kOffset; ring⟩
  · exact ⟨Point.make (-1) (-1), by decide,
      by unfold Point.add Point.make kOrigin kOffset; ring⟩
  · exact ⟨Point.make 0 (-1), by decide, by unfold Point.add Point.make kOrigin kOffset; ring⟩
  · exact ⟨Point.make 1 (-1), by decide, by unfold Point.add Point.make kOrigin kOffset; ring⟩
  · exact ⟨Point.make 1 0, by decide, by unfold Point.add Point.make kOrigin kOffset; ring⟩
  · exact ⟨Point.make 1 1, by decide, by unfold Point.add Point.make kOrigin kOffset; ring⟩

/-- C4 (counterexample): the claim that `LOS(a, b)` is exactly the reverse of
`LOS(b, a)` fails at a = (0,0), b = (2,1): the forward line passes through
(1,0) while the reversed backward line passes through (1,1). -/
theorem C4_los_reverse_counterexample :
    LOS (Point.make 0 0) (Point.make 2 1) ≠
      (LOS (Point.make 2 1) (Point.make 0 0)).reverse := by
  decide

/-- C4 (amended): for every pair of points, the reverse of `LOS(b, a)` is a
line with the same length as `LOS(a, b)`, the same endpoints (it runs from
`a` to `b`), and is itself connected by single-step (including diagonal)
moves; exact cell-for-cell equality with `LOS(a, b)` does not hold in
general. -/
theorem C4_los_reverse_amended (a b : Int) :
    (LOS b a).reverse.length = (LOS a b).length ∧
    (LOS b a).reverse.head? = some a ∧
    (LOS b a).reverse.getLast? = some b ∧
    List.Chain' Adjacent ((LOS b a).reverse) := by
  refine ⟨?_, ?_, ?_, ?_⟩
  · rw [List.length_reverse, LOS_length, LOS_length, abs_sub_comm (Point.x b),
      abs_sub_comm (Point.y b), max_comm]
  · rw [List.head?_reverse, LOS_last]
  · rw [List.getLast?_reverse]
    obtain ⟨l, hl⟩ := LOS_cons b a
    rw [hl]
    rfl
  · exact List.chain'_reverse.mpr ((LOS_chain b a).imp fun u v h => adjacent_symm u v h)

/-- C5: packing then decoding returns the original in-range coordinates, and
packing (equivalently `Point.key` after `Point.make`) is injective on the
supported coordinate range. -/
theorem C5_point_roundtrip_inj (x1 y1 x2 y2 : Int)
    (h1 : -16384 ≤ x1 ∧ x1 ≤ 16383) (h2 : -16384 ≤ y1 ∧ y1 ≤ 16383)
    (h3 : -16384 ≤ x2 ∧ x2 ≤ 16383) (h4 : -16384 ≤ y2 ∧ y2 ≤ 16383) :
    Point.x (Point.make x1 y1) = x1 ∧ Point.y (Point.make x1 y1) = y1 ∧
    (Point.key (Point.make x1 y1) = Point.key (Point.make x2 y2) →
      x1 = x2 ∧ y1 = y2) := by
  unfold Point.make Point.x Point.y Point.key kOrigin kOffset
  omega

/-- C5 witness at concrete in-range inputs. -/
theorem C5_point_roundtrip_inj_witness :
    Point.x (Point.make 3 4) = 3 ∧ Point.y (Point.make 3 4) = 4 ∧
    (Point.key (Point.make 3 4) = Point.key (Point.make (-4) 5) →
      (3 : Int) = -4 ∧ (4 : Int) = 5) :=
  C5_point_roundtrip_inj 3 4 (-4) 5 (by norm_num) (by norm_num) (by norm_num)
    (by norm_num)

/-! ### HashTable: open-addressing u32 -> u32 map with tombstone deletion -/

def kMissing : Int := -1

def kTombstone : Int := -2

def kMinCapacity : Nat := 4

/-- HashTable state.  `keys` and `vals` model the two `Int32Array`s (their
length is `capacity`); `max_size = capacity * 0.75`, which is exact integer
arithmetic (`capacity * 3 / 4`) for the power-of-two capacities (>= 4) the
table uses. -/
structure HashTable where
  size : Int
  capacity : Nat
  max_size : Int
  keys : List Int
  vals : List Int
deriving DecidableEq, Repr

/-- One byte-mixing round of the private `hash`: from 16-bit registers
`(v0, v1)` and byte `b`, compute the updated `(v0, v1)`. -/
def hashStep (v0 v1 b : Nat) : Nat × Nat :=
  let v0 := v0 ^^^ b
  let t0 := v0 * 403
  let t1 := v1 * 403 + v0 * 256
  (t0 % 65536, (t1 + t0 / 65536) % 65536)

/-- The hash function, processing the four bytes of the non-negative key.
The final expression mirrors `((v1 & 0x3fff << 16) >>> 0) + v0` with the
original precedence (`<<` binds tighter than `&`, so the mask is
`0x3fff0000` and the `v1` term vanishes). -/
def hash (key : Int) : Nat :=
  let k := key.toNat
  let s1 := hashStep 0x9dc5 0x811c (k % 256)
  let s2 := hashStep s1.1 s1.2 (k / 256 % 256)
  let s3 := hashStep s2.1 s2.2 (k / 65536 % 256)
  let s4 := hashStep s3.1 s3.2 (k / 16777216 % 256)
  (s4.2 &&& (0x3fff <<< 16)) + s4.1

/-- `HashTable.init`: fresh arrays, keys filled with the missing marker. -/
def HashTable.init (capacity : Nat) : HashTable :=
  { size := 0, capacity := capacity, max_size := (capacity : Int) * 3 / 4,
    keys := List.replicate capacity kMissing,
    vals := List.replicate capacity 0 }

/-- The constructor loop `while (capacity < target) capacity *= 2`; the
first argument bounds the number of doublings (an embedding artifact;
`target` doublings always suffice). -/
def growCap : Nat → Nat → Nat → Nat
  | 0, cap, _ => cap
  | f + 1, cap, target => if cap < target then growCap f (2 * cap) target else cap

def HashTable.new (target : Nat) : HashTable :=
  HashTable.init (growCap target kMinCapacity target)

/-- The unbounded probe loop of `get`.  `fuel` is an embedding artifact:
`none` means the loop has not returned within `fuel` iterations.  Probe
positions repeat with period `2 * capacity` for power-of-two capacities, so
a `none` at every fuel means the concrete loop never returns. -/
def getProbe (keys vals : List Int) (capacity : Nat) (key : Int) :
    Nat → Nat → Nat → Option (Option Int)
  | _, _, 0 => none
  | current, delta, fuel + 1 =>
    let probe := keys.getD current 0
    if probe = key then some (some (vals.getD current 0))
    else if probe = kMissing then some none
    else getProbe keys vals capacity key ((current + delta) &&& (capacity - 1))
      (delta + 1) fuel

/-- `HashTable.get`, with the probe loop fueled. -/
def HashTable.get (st : HashTable) (key : Int) (fuel : Nat) : Option (Option Int) :=
  getProbe st.keys st.vals st.capacity key (hash key &&& (st.capacity - 1)) 1 fuel

/-- Outcome of the `set` probe loop: a matching slot, or the first missing
slot together with the earliest tombstone seen on the way. -/
inductive SetProbe where
  | found (idx : Nat)
  | empty (idx : Nat) (tomb : Option Nat)
deriving DecidableEq, Repr

def setProbe (keys : List Int) (capacity : Nat) (key : Int) :
    Nat → Nat → Option Nat → Nat → Option SetProbe
  | _, _, _, 0 => none
  | current, delta, tomb, fuel + 1 =>
    let probe := keys.getD current 0
    if probe = key then some (.found current)
    else if probe = kMissing then some (.empty current tomb)
    else
      let tomb := if probe = kTombstone ∧ tomb = none then some current else tomb
      setProbe keys capacity key ((current + delta) &&& (capacity - 1)) (delta + 1)
        tomb fuel

/-- The probe-and-insert part of `set` (everything after the grow check):
overwrite on a key match, otherwise insert at the earliest tombstone if one
was passed, else at the first missing slot, incrementing `size`. -/
def HashTable.setRaw (st : HashTable) (key val : Int) (fuel : Nat) :
    Option HashTable :=
  match setProbe st.keys st.capacity key (hash key &&& (st.capacity - 1)) 1 none fuel with
  | none => none
  | some (.found idx) => some { st with vals := st.vals.set idx val }
  | some (.empty idx tomb) =>
    let target := tomb.getD idx
    some { st with keys := st.keys.set target key, vals := st.vals.set target val,
                   size := st.size + 1 }

/-- `HashTable.set`, with `fuel` bounding the nested rebuild recursion (the
grow path re-initializes at double capacity and reinserts every live entry
in index order via `set` itself); each probe loop gets `2 * capacity + 1`
steps, the full period of the triangular probe sequence. -/
def tableSet : Nat → HashTable → Int → Int → Option HashTable
  | 0, _, _, _ => none
  | fuel + 1, st, key, val =>
    match (if st.size = st.max_size then
            (List.range st.capacity).foldlM
              (fun acc i =>
                let k := st.keys.getD i 0
                if k < 0 then some acc
                else tableSet fuel acc k (st.vals.getD i 0))
              (HashTable.init (2 * st.capacity))
           else some st) with
    | none => none
    | some st2 => st2.setRaw key val (2 * st2.capacity + 1)

/-- `HashTable.rebuild` at a target capacity: re-initialize and reinsert
every live entry of the old arrays in index order. -/
def tableRebuild (fuel : Nat) (st : HashTable) (target : Nat) : Option HashTable :=
  (List.range st.capacity).foldlM
    (fun acc i =>
      let k := st.keys.getD i 0
      if k < 0 then some acc
      else tableSet fuel acc k (st.vals.getD i 0))
    (HashTable.init target)

/-- The probe loop of `remove`: tombstone the matching slot and decrement
`size`, or stop silently at a missing slot. -/
def removeProbe (st : HashTable) (key : Int) : Nat → Nat → Nat → Option HashTable
  | _, _, 0 => none
  | current, delta, fuel + 1 =>
    let probe := st.keys.getD current 0
    if probe = key then
      some { st with keys := st.keys.set current kTombstone, size := st.size - 1 }
    else if probe = kMissing then some st
    else removeProbe st key ((current + delta) &&& (st.capacity - 1)) (delta + 1) fuel

/-- `HashTable.remove`, with the shrink check before the probe. -/
def tableRemove (fuel : Nat) (st : HashTable) (key : Int) : Option HashTable :=
  match fuel with
  | 0 => none
  | f + 1 =>
    match (if 4 * st.size < st.max_size ∧ kMinCapacity < st.capacity
           then tableRebuild f st (st.capacity / 2) else some st) with
    | none => none
    | some st2 =>
      removeProbe st2 key (hash key &&& (st2.capacity - 1)) 1 (2 * st2.capacity + 1)

/-- The operation sequence that fills a capacity-4 table with three live
keys plus one tombstone: set 1, set 0, set 3 (hash buckets 0, 1, 2),
remove 1, then set 2 (bucket 3, inserted into the last missing slot). -/
def c6Table : Option HashTable :=
  (tableSet 4 (HashTable.new 0) 1 11).bind fun s1 =>
  (tableSet 4 s1 0 22).bind fun s2 =>
  (tableSet 4 s2 3 33).bind fun s3 =>
  (tableRemove 4 s3 1).bind fun s4 =>
  tableSet 4 s4 2 44

lemma land3_lt (x : Nat) : x &&& 3 < 4 := by
  have h := Nat.and_pow_two_sub_one_eq_mod x 2
  norm_num at h
  omega

/-- In the full table left by `c6Table`, probing for the removed key 1
never stops: no slot matches and no slot is the missing marker, so the
probe loop exhausts every fuel. -/
lemma c6_probe_diverges :
    ∀ (fuel current delta : Nat), current < 4 →
      getProbe [-2, 0, 3, 2] [11, 22, 33, 44] 4 1 current delta fuel = none := by
  intro fuel
  induction fuel with
  | zero => intro current delta h; rfl
  | succ f ih =>
    intro current delta h
    interval_cases current <;>
      (simp only [getProbe, List.getD]
       norm_num
       exact ih _ _ (land3_lt _))

/-- C6: after `set 1; set 0; set 3; remove 1; set 2` on a fresh table, every
slot is occupied or tombstoned (no missing marker remains), and `get 1`
diverges: the probe loop returns within no fuel bound, contradicting the
claim that every `get` terminates and returns the absent marker for a
removed key. -/
theorem C6_get_after_remove_diverges :
    ∃ st : HashTable, c6Table = some st ∧ (∀ k ∈ st.keys, k ≠ kMissing) ∧
      ∀ fuel : Nat, HashTable.get st 1 fuel = none := by
  refine ⟨⟨3, 4, 3, [-2, 0, 3, 2], [11, 22, 33, 44]⟩, by decide, by decide, ?_⟩
  intro fuel
  exact c6_probe_diverges fuel _ 1 (land3_lt _)

example : c6Table = some ⟨3, 4, 3, [-2, 0, 3, 2], [11, 22, 33, 44]⟩ := by decide

/-! ### A* nodes and the heap extraction scan -/

/-- An A* search node.  In the TS code `parent` is a reference to another
node; since the search registry maps each packed point to at most one node
ever, node identity coincides with the point key, and the reference is
embedded as the parent's key. -/
structure AStarNode where
  point : Int
  parent : Option Int
  bits : Nat
  distance : Int
  score : Int
deriving DecidableEq, Repr

instance : Inhabited AStarNode := ⟨⟨0, none, 0, 0, 0⟩⟩

/-- The forward scan of `AStarHeapExtractMin` over the remaining scores,
carrying position `i` and the current best `(best_index, best_score)`.  An
entry replaces the best whenever it is not strictly greater (`score >
best_score` continues), so ties move the index forward.  Seeding with the
first element matches the `Infinity` initialization, which the first
iteration always replaces. -/
def scanMinAux : List Int → Nat → Nat × Int → Nat × Int
  | [], _, best => best
  | s :: rest, i, (bi, bs) =>
    scanMinAux rest (i + 1) (if s > bs then (bi, bs) else (i, s))

/-- The index chosen by the extraction scan (0 on the empty heap, where the
TS code would fail its assertion). -/
def extractMinIndex (scores : List Int) : Nat :=
  match scores with
  | [] => 0
  | s :: rest => (scanMinAux rest 1 (0, s)).1

/-- Remove the element at `idx` by popping the last element and swapping it
into the vacated slot (unless the vacated slot was the last). -/
def heapRemoveAt (heap : List α) (idx : Nat) : List α :=
  match heap.getLast? with
  | none => heap.dropLast
  | some popped =>
    let h2 := heap.dropLast
    if idx < h2.length then h2.set idx popped else h2

/-- `AStarHeapExtractMin` on a list of nodes: select by the scan, return the
selected node and the heap after swap-removal. -/
def AStarHeapExtractMin (heap : List AStarNode) : AStarNode × List AStarNode :=
  let idx := extractMinIndex (heap.map (fun n => n.score))
  (heap.getD idx default, heapRemoveAt heap idx)

/-- Full characterization of the extraction scan: the result is the pending
best or one of the scanned entries; it is no larger than the pending best
and than every scanned entry; and every entry strictly after the chosen
index is strictly larger (ties advance the index). -/
lemma scanMinAux_spec : ∀ (rest : List Int) (i bi : Nat) (bs : Int), bi < i →
    ∃ idx s, scanMinAux rest i (bi, bs) = (idx, s) ∧
      ((idx = bi ∧ s = bs) ∨ ∃ j, j < rest.length ∧ idx = i + j ∧ s = rest.getD j 0) ∧
      s ≤ bs ∧ (∀ t ∈ rest, s ≤ t) ∧
      (∀ j, j < rest.length → i + j > idx → s < rest.getD j 0) := by
  intro rest
  induction rest with
  | nil =>
    intro i bi bs hbi
    exact ⟨bi, bs, rfl, Or.inl ⟨rfl, rfl⟩, le_refl _, by simp, by simp⟩
  | cons t rest ih =>
    intro i bi bs hbi
    simp only [scanMinAux]
    split
    · rename_i hgt
      obtain ⟨idx, s, heq, hpos, hle, hall, hlast⟩ := ih (i + 1) bi bs (by omega)
      refine ⟨idx, s, heq, ?_, hle, ?_, ?_⟩
      · rcases hpos with ⟨h1, h2⟩ | ⟨j, hj1, hj2, hj3⟩
        · exact Or.inl ⟨h1, h2⟩
        · exact Or.inr ⟨j + 1, by simpa using hj1, by omega, by simpa using hj3⟩
      · intro u hu
        rcases List.mem_cons.mp hu with h | h
        · omega
        · exact hall u h
      · intro j hj hgt2
        match j with
        | 0 =>
          have hidx : idx = bi ∨ i + 1 ≤ idx := by
            rcases hpos with ⟨h1, _⟩ | ⟨j', _, hj2, _⟩ <;> omega
          simp only [List.getD_cons_zero]
          rcases hidx with h | h
          · omega
          · omega
        | j + 1 =>
          simp only [List.getD_cons_succ]
          exact hlast j (by simpa using hj) (by omega)
    · rename_i hngt
      obtain ⟨idx, s, heq, hpos, hle, hall, hlast⟩ := ih (i + 1) i t (by omega)
      refine ⟨idx, s, heq, ?_, by omega, ?_, ?_⟩
      · rcases hpos with ⟨h1, h2⟩ | ⟨j, hj1, hj2, hj3⟩
        · exact Or.inr ⟨0, by simp, by omega, by simpa using h2⟩
        · exact Or.inr ⟨j + 1, by simpa using hj1, by omega, by simpa using hj3⟩
      · intro u hu
        rcases List.mem_cons.mp hu with h | h
        · omega
        · exact hall u h
      · intro j hj hgt2
        match j with
        | 0 =>
          have hidx : i ≤ idx := by
            rcases hpos with ⟨h1, _⟩ | ⟨j', _, hj2, _⟩ <;> omega
          omega
        | j + 1 =>
          simp only [List.getD_cons_succ]
          exact hlast j (by simpa using hj) (by omega)

/-- The index chosen by the scan is in bounds, its score is minimal, and
every entry strictly after it is strictly larger (the scan keeps the last
minimal element). -/
lemma extractMinIndex_spec (s : Int) (rest : List Int) :
    extractMinIndex (s :: rest) < (s :: rest).length ∧
    (∀ t ∈ s :: rest, (s :: rest).getD (extractMinIndex (s :: rest)) 0 ≤ t) ∧
    (∀ j, extractMinIndex (s :: rest) < j → j < (s :: rest).length →
      (s :: rest).getD (extractMinIndex (s :: rest)) 0 < (s :: rest).getD j 0) := by
  obtain ⟨idx, sv, heq, hpos, hle, hall, hlast⟩ := scanMinAux_spec rest 1 0 s (by omega)
  have hidx : extractMinIndex (s :: rest) = idx := by
    simp [extractMinIndex, heq]
  have hval : (s :: rest).getD idx 0 = sv := by
    rcases hpos with ⟨h1, h2⟩ | ⟨j, hj1, hj2, hj3⟩
    · subst h1
      simpa using h2.symm
    · subst hj2
      rw [Nat.add_comm, List.getD_cons_succ]
      exact hj3.symm
  rw [hidx, hval]
  refine ⟨?_, ?_, ?_⟩
  · rcases hpos with ⟨h1, _⟩ | ⟨j, hj1, hj2, _⟩ <;> simp <;> omega
  · intro t ht
    rcases List.mem_cons.mp ht with h | h
    · omega
    · exact hall t h
  · intro j h1 h2
    match j with
    | 0 => omega
    | j + 1 =>
      rw [List.getD_cons_succ]
      exact hlast j (by simpa using h2) (by omega)

/-- Swap-removal shortens the heap by exactly one. -/
lemma heapRemoveAt_length (heap : List α) (idx : Nat) (hne : heap ≠ []) :
    (heapRemoveAt heap idx).length + 1 = heap.length := by
  unfold heapRemoveAt
  cases hq : heap.getLast? with
  | none => exact absurd (List.getLast?_eq_none_iff.mp hq) hne
  | some p =>
    have hlen : 0 < heap.length := List.length_pos.mpr hne
    dsimp only
    split <;> simp only [List.length_set, List.length_dropLast] <;> omega

/-- Elementwise description of swap-removal: the vacated slot holds the old
last element, every other surviving slot is untouched. -/
lemma heapRemoveAt_getD [Inhabited α] (heap : List α) (idx : Nat) (hidx : idx < heap.length) :
    ∀ j, j < heap.length - 1 →
      (heapRemoveAt heap idx).getD j default =
        if j = idx then heap.getD (heap.length - 1) default
        else heap.getD j default := by
  intro j hj
  have hne : heap ≠ [] := by
    intro hcon
    rw [hcon] at hidx
    simp at hidx
  unfold heapRemoveAt
  cases hq : heap.getLast? with
  | none => exact absurd (List.getLast?_eq_none_iff.mp hq) hne
  | some p =>
    have hplast : heap.getD (heap.length - 1) default = p := by
      have hq2 := hq
      rw [List.getLast?_eq_getElem?,
        List.getElem?_eq_getElem (show heap.length - 1 < heap.length by
          have := List.length_pos.mpr hne
          omega)] at hq2
      rw [List.getD_eq_getElem _ _ (by have := List.length_pos.mpr hne; omega)]
      exact Option.some.inj hq2
    have hdl : heap.dropLast.length = heap.length - 1 := List.length_dropLast heap
    dsimp only
    split
    · rename_i hlt
      rw [List.getD_eq_getElem _ _ (by simpa using by omega : j < (heap.dropLast.set idx p).length)]
      rw [List.getElem_set]
      split
      · rename_i hj2
        rw [if_pos hj2.symm, hplast]
      · rename_i hj2
        rw [if_neg (fun hc => hj2 hc.symm)]
        rw [List.getElem_dropLast, List.getD_eq_getElem _ _ (by omega)]
    · rename_i hge
      have hj2 : j ≠ idx := by omega
      rw [if_neg hj2]
      rw [List.getD_eq_getElem _ _ (by omega : j < heap.dropLast.length)]
      rw [List.getElem_dropLast, List.getD_eq_getElem _ _ (by omega)]

lemma getD_map_score (l : List AStarNode) (j : Nat) (hj : j < l.length) :
    (l.map (fun n => n.score)).getD j 0 = (l.getD j default).score := by
  rw [List.getD_eq_getElem _ _ (by simpa using hj), List.getD_eq_getElem _ _ hj,
    List.getElem_map]

/-- C8 (counterexample): on a heap of two distinct nodes with equal minimal
score, `AStarHeapExtractMin` returns the second node, not the first minimal
element of the forward scan as the claim states. -/
theorem C8_extract_first_counterexample :
    (AStarHeapExtractMin
        [⟨Point.make 0 0, none, 0, 0, 5⟩, ⟨Point.make 1 0, none, 0, 0, 5⟩]).1 =
      ⟨Point.make 1 0, none, 0, 0, 5⟩ ∧
    (⟨Point.make 0 0, none, 0, 0, 5⟩ : AStarNode) ≠ ⟨Point.make 1 0, none, 0, 0, 5⟩ ∧
    (⟨Point.make 0 0, none, 0, 0, 5⟩ : AStarNode).score =
      (⟨Point.make 1 0, none, 0, 0, 5⟩ : AStarNode).score := by
  decide

/-- C8 (amended): on every non-empty heap, `AStarHeapExtractMin` returns an
element of minimal score — the LAST minimal element encountered in a
forward scan (every later entry is strictly larger) — the vacated slot is
filled by swapping in the final element (not a stable removal), and the
heap length decreases by exactly one. -/
theorem C8_extract_min_amended (heap : List AStarNode) (hne : heap ≠ []) :
    ∃ idx, idx < heap.length ∧
      (AStarHeapExtractMin heap).1 = heap.getD idx default ∧
      (∀ n ∈ heap, (AStarHeapExtractMin heap).1.score ≤ n.score) ∧
      (∀ j, idx < j → j < heap.length →
        (AStarHeapExtractMin heap).1.score < (heap.getD j default).score) ∧
      (AStarHeapExtractMin heap).2.length + 1 = heap.length ∧
      (∀ j, j < heap.length - 1 →
        (AStarHeapExtractMin heap).2.getD j default =
          if j = idx then heap.getD (heap.length - 1) default
          else heap.getD j default) := by
  cases heap with
  | nil => exact absurd rfl hne
  | cons n rest =>
    obtain ⟨hlt, hmin, hstrict⟩ := extractMinIndex_spec n.score (rest.map (fun m => m.score))
    have hmap : (n :: rest).map (fun m => m.score) =
        n.score :: rest.map (fun m => m.score) := rfl
    have hlt2 : extractMinIndex ((n :: rest).map (fun m => m.score)) <
        (n :: rest).length := by
      rw [hmap]
      simpa using hlt
    have hext : AStarHeapExtractMin (n :: rest) =
        ((n :: rest).getD (extractMinIndex ((n :: rest).map (fun m => m.score))) default,
          heapRemoveAt (n :: rest) (extractMinIndex ((n :: rest).map (fun m => m.score)))) :=
      rfl
    refine ⟨extractMinIndex ((n :: rest).map (fun m => m.score)), hlt2, ?_, ?_, ?_, ?_, ?_⟩
    · rw [hext]
    · intro m hm
      rw [hext]
      simp only
      rw [← getD_map_score _ _ hlt2, hmap]
      exact hmin m.score (by rw [← hmap]; exact List.mem_map_of_mem _ hm)
    · intro j h1 h2
      rw [hext]
      simp only
      rw [← getD_map_score _ _ hlt2, ← getD_map_score _ _ h2, hmap]
      refine hstrict j ?_ (by simpa using h2)
      rw [← hmap]
      exact h1
    · rw [hext]
      simp only
      exact heapRemoveAt_length (n :: rest) _ (by simp)
    · intro j hj
      rw [hext]
      simp only
      exact heapRemoveAt_getD (n :: rest) _ hlt2 j hj

/-- C8 amended witness at a concrete two-node heap. -/
theorem C8_extract_min_amended_witness :
    ∃ idx, idx < ([⟨Point.make 0 0, none, 0, 0, 7⟩,
        ⟨Point.make 1 0, none, 0, 0, 5⟩] : List AStarNode).length ∧
      (AStarHeapExtractMin [⟨Point.make 0 0, none, 0, 0, 7⟩,
        ⟨Point.make 1 0, none, 0, 0, 5⟩]).1 =
        ([⟨Point.make 0 0, none, 0, 0, 7⟩,
          ⟨Point.make 1 0, none, 0, 0, 5⟩] : List AStarNode).getD idx default ∧
      (∀ n ∈ ([⟨Point.make 0 0, none, 0, 0, 7⟩,
          ⟨Point.make 1 0, none, 0, 0, 5⟩] : List AStarNode),
        (AStarHeapExtractMin [⟨Point.make 0 0, none, 0, 0, 7⟩,
          ⟨Point.make 1 0, none, 0, 0, 5⟩]).1.score ≤ n.score) ∧
      (∀ j, idx < j → j < ([⟨Point.make 0 0, none, 0, 0, 7⟩,
          ⟨Point.make 1 0, none, 0, 0, 5⟩] : List AStarNode).length →
        (AStarHeapExtractMin [⟨Point.make 0 0, none, 0, 0, 7⟩,
          ⟨Point.make 1 0, none, 0, 0, 5⟩]).1.score <
          (([⟨Point.make 0 0, none, 0, 0, 7⟩,
            ⟨Point.make 1 0, none, 0, 0, 5⟩] : List AStarNode).getD j default).score) ∧
      (AStarHeapExtractMin [⟨Point.make 0 0, none, 0, 0, 7⟩,
        ⟨Point.make 1 0, none, 0, 0, 5⟩]).2.length + 1 =
        ([⟨Point.make 0 0, none, 0, 0, 7⟩,
          ⟨Point.make 1 0, none, 0, 0, 5⟩] : List AStarNode).length ∧
      (∀ j, j < ([⟨Point.make 0 0, none, 0, 0, 7⟩,
          ⟨Point.make 1 0, none, 0, 0, 5⟩] : List AStarNode).length - 1 →
        (AStarHeapExtractMin [⟨Point.make 0 0, none, 0, 0, 7⟩,
          ⟨Point.make 1 0, none, 0, 0, 5⟩]).2.getD j default =
          if j = idx then ([⟨Point.make 0 0, none, 0, 0, 7⟩,
            ⟨Point.make 1 0, none, 0, 0, 5⟩] : List AStarNode).getD
              (([⟨Point.make 0 0, none, 0, 0, 7⟩,
                ⟨Point.make 1 0, none, 0, 0, 5⟩] : List AStarNode).length - 1) default
          else ([⟨Point.make 0 0, none, 0, 0, 7⟩,
            ⟨Point.make 1 0, none, 0, 0, 5⟩] : List AStarNode).getD j default) :=
  C8_extract_min_amended
    [⟨Point.make 0 0, none, 0, 0, 7⟩, ⟨Point.make 1 0, none, 0, 0, 5⟩] (by decide)

/-! ### A* search -/

def AStarUnitCost : Int := 16

def AStarDiagonalPenalty : Int := 2

def AStarLOSDeltaPenalty : Int := 1

def AStarOccupiedPenalty : Int := 64

/-- The A* heuristic: octile distance to the target plus the deviation from
the source-to-target line-of-sight (`delta`), projected along the dominant
axis of the line. -/
def AStarHeuristic (p : Int) (los : List Int) : Int :=
  let px := Point.x p
  let py := Point.y p
  let sx := Point.x (los.getD 0 0)
  let sy := Point.y (los.getD 0 0)
  let tx := Point.x (los.getD (los.length - 1) 0)
  let ty := Point.y (los.getD (los.length - 1) 0)
  let delta :=
    let dx := tx - sx
    let dy := ty - sy
    let l : Int := (los.length : Int) - 1
    if |dx| > |dy| then
      let index := if dx > 0 then px - sx else sx - px
      if index < 0 then |px - sx| + |py - sy|
      else if index > l then |px - tx| + |py - ty|
      else |py - Point.y (los.getD index.toNat 0)|
    else
      let index := if dy > 0 then py - sy else sy - py
      if index < 0 then |px - sx| + |py - sy|
      else if index > l then |px - tx| + |py - ty|
      else |px - Point.x (los.getD index.toNat 0)|
  AStarUnitCost * max |tx - px| |ty - py| +
    AStarDiagonalPenalty * min |tx - px| |ty - py| +
    AStarLOSDeltaPenalty * delta

/-- The search registry (`Map<int, AStarNode>` keyed by `Point.key`),
embedded as an association list. -/
abbrev AStarReg := List (Int × AStarNode)

def regGet (reg : AStarReg) (k : Int) : Option AStarNode :=
  reg.lookup k

/-- Insertion of a fresh key (`map.set` is only called for new keys). -/
def regSet (reg : AStarReg) (k : Int) (n : AStarNode) : AStarReg :=
  reg ++ [(k, n)]

/-- In-place mutation of the node object stored under key `k`. -/
def regUpd (reg : AStarReg) (k : Int) (n : AStarNode) : AStarReg :=
  reg.map (fun e => if e.1 = k then (k, n) else e)

structure AStarState where
  reg : AStarReg
  heap : List Int
deriving DecidableEq, Repr

/-- One direction case of the expansion loop for direction index `i` from
the popped node `prev` (read at pop time; the loop never touches the popped
node's own registry entry, so the snapshot agrees with the live object). -/
def AStarVisit (check : Int → Status) (target : Int) (los : List Int)
    (prevKey : Int) (prev : AStarNode) (st : AStarState) (i : Nat) : AStarState :=
  let reverse_bit := 1 <<< ((i + 4) % 8)
  if prev.bits &&& reverse_bit ≠ 0 then st
  else
    let forward_bit := 1 <<< i
    let direction := Direction.all.getD i 0
    let next := Point.add prev.point direction
    let test := if next = target then Status.FREE else check next
    if test = Status.BLOCKED then st
    else
      let diagonal := i % 2 ≠ 0
      let occupied := test = Status.OCCUPIED
      let distance := prev.distance + AStarUnitCost +
        (if diagonal then AStarDiagonalPenalty else 0) +
        (if occupied then AStarOccupiedPenalty else 0)
      let key := Point.key next
      match regGet st.reg key with
      | some existing =>
        let existing2 := { existing with bits := existing.bits ||| forward_bit }
        if existing2.distance ≤ distance then
          { st with reg := regUpd st.reg key existing2 }
        else
          let relaxed : AStarNode :=
            { existing2 with
              score := existing2.score + (distance - existing2.distance),
              distance := distance,
              parent := some prevKey }
          { st with reg := regUpd st.reg key relaxed }
      | none =>
        let bits := forward_bit
        let score := distance + AStarHeuristic next los
        let next_node : AStarNode := ⟨next, some prevKey, bits, distance, score⟩
        { reg := regSet st.reg key next_node, heap := st.heap ++ [key] }

/-- Scores of the heap entries, read through the registry (the TS heap
stores live node references; nodes live in the registry here). -/
def heapScores (reg : AStarReg) (heap : List Int) : List Int :=
  heap.map (fun k => ((regGet reg k).getD default).score)

/-- Walk the parent chain (`while (current.parent)`), collecting points on
the way; `fuel` is an embedding artifact (under the search invariant,
distances strictly decrease along the chain, which therefore visits
distinct registry entries). -/
def walkParents (reg : AStarReg) : Nat → AStarNode → List Int
  | 0, _ => []
  | fuel + 1, cur =>
    match cur.parent with
    | none => []
    | some pk =>
      match regGet reg pk with
      | none => [cur.point]
      | some par => cur.point :: walkParents reg fuel par

def AStarPathRebuild (reg : AStarReg) (node : AStarNode) : List Int :=
  (walkParents reg (reg.length + 1) node).reverse

/-- The A* main loop, fueled (the TS loop runs until the heap empties):
`none` means fuel ran out; otherwise the optional path and the visitation
record (every popped point in pop order). -/
def AStarLoop (check : Int → Status) (target : Int) (los : List Int) :
    Nat → AStarState → List Int → Option (Option (List Int) × List Int)
  | 0, _, _ => none
  | fuel + 1, st, record =>
    match st.heap with
    | [] => some (none, record)
    | _ :: _ =>
      let idx := extractMinIndex (heapScores st.reg st.heap)
      let prevKey := st.heap.getD idx 0
      let heap2 := heapRemoveAt st.heap idx
      let prev := (regGet st.reg prevKey).getD default
      let record2 := record ++ [prev.point]
      if prev.point = target then
        some (some (AStarPathRebuild st.reg prev), record2)
      else
        let st2 := (List.range 8).foldl (AStarVisit check target los prevKey prev)
          { st with heap := heap2 }
        AStarLoop check target los fuel st2 record2

/-- `AStar(source, target, check)`, fueled.  The pair also carries the
visitation record (the optional `record` sink of the TS code, always
collected here): the outer `none` means fuel exhausted; `some (none, rec)`
is the "no path" result. -/
def AStar (source target : Int) (check : Int → Status) (fuel : Nat) :
    Option (Option (List Int) × List Int) :=
  let los := LOS source target
  if ∀ p ∈ (los.drop 1).dropLast, check p = Status.FREE then
    some (some (los.drop 1), [])
  else
    let score := AStarHeuristic source los
    let source_node : AStarNode := ⟨source, none, 0, 0, score⟩
    AStarLoop check target los fuel ⟨[(Point.key source, source_node)], [Point.key source]⟩ []

example :
    AStar (Point.make 0 2) (Point.make 4 2)
      (fun p => if p = Point.make 2 1 ∨ p = Point.make 2 2 ∨ p = Point.make 2 3 ∨
          p = Point.make 2 4 then Status.BLOCKED else Status.FREE) 20 =
    some (some [Point.make 1 1, Point.make 2 0, Point.make 3 1, Point.make 4 2],
      [Point.make 0 2, Point.make 1 2, Point.make 1 3, Point.make 1 1, Point.make 2 0,
       Point.make 3 1, Point.make 4 2]) := by decide

example :
    AStar (Point.make 0 0) (Point.make 3 0)
      (fun p => if p = Point.make 1 0 then Status.OCCUPIED else Status.FREE) 20 =
    some (some [Point.make 1 1, Point.make 2 0, Point.make 3 0],
      [Point.make 0 0, Point.make 1 1, Point.make 2 0, Point.make 3 0]) := by decide

example :
    AStar (Point.make 0 0) (Point.make 4 0)
      (fun p => if p = Point.make 1 (-1) ∨ p = Point.make 1 0 ∨ p = Point.make 1 1 ∨
          p = Point.make 0 1 ∨ p = Point.make (-1) 1 ∨ p = Point.make (-1) 0 ∨
          p = Point.make (-1) (-1) ∨ p = Point.make 0 (-1) then Status.BLOCKED
        else Status.FREE) 20 =
    some (none, [Point.make 0 0]) := by decide

lemma lookup_cons_eq (k : Int) (v : AStarNode) (t : AStarReg) (k2 : Int) (h : k2 = k) :
    List.lookup k2 ((k, v) :: t) = some v := by
  subst h
  simp [List.lookup]

lemma lookup_cons_ne (k : Int) (v : AStarNode) (t : AStarReg) (k2 : Int) (h : k2 ≠ k) :
    List.lookup k2 ((k, v) :: t) = List.lookup k2 t := by
  simp only [List.lookup]
  rw [show (k2 == k) = false from beq_eq_false_iff_ne.mpr h]

lemma regGet_regUpd (reg : AStarReg) (k : Int) (n : AStarNode) (k2 : Int) :
    regGet (regUpd reg k n) k2 =
      if k2 = k then (regGet reg k).map (fun _ => n) else regGet reg k2 := by
  induction reg with
  | nil => simp [regGet, regUpd, List.lookup]
  | cons e t ih =>
    obtain ⟨ek, ev⟩ := e
    simp only [regGet, regUpd, List.map_cons] at *
    dsimp only
    by_cases h1 : ek = k
    · rw [if_pos h1]
      by_cases h2 : k2 = k
      · rw [lookup_cons_eq _ _ _ _ h2, if_pos h2, lookup_cons_eq _ _ _ _ (by omega)]
        rfl
      · rw [lookup_cons_ne _ _ _ _ h2, if_neg h2, lookup_cons_ne _ _ _ _ (by omega)]
        simpa [if_neg h2] using ih
    · rw [if_neg h1]
      by_cases h2 : k2 = ek
      · rw [lookup_cons_eq _ _ _ _ h2, if_neg (by omega : ¬(k2 = k)),
          lookup_cons_eq _ _ _ _ h2]
      · rw [lookup_cons_ne _ _ _ _ h2]
        by_cases h4 : k2 = k
        · rw [if_pos h4, lookup_cons_ne _ _ _ _ (by omega)]
          simpa [if_pos h4] using ih
        · rw [if_neg h4, lookup_cons_ne _ _ _ _ h2]
          simpa [if_neg h4] using ih

lemma regGet_regSet (reg : AStarReg) (k : Int) (n : AStarNode) (k2 : Int) :
    regGet (regSet reg k n) k2 =
      match regGet reg k2 with
      | some m => some m
      | none => if k2 = k then some n else none := by
  induction reg with
  | nil =>
    simp only [regGet, regSet, List.nil_append]
    by_cases h : k2 = k
    · rw [lookup_cons_eq _ _ _ _ h]
      simp [List.lookup, if_pos h]
    · rw [lookup_cons_ne _ _ _ _ h]
      simp [List.lookup, if_neg h]
  | cons e t ih =>
    obtain ⟨ek, ev⟩ := e
    simp only [regGet, regSet, List.cons_append] at *
    by_cases h : k2 = ek
    · rw [lookup_cons_eq _ _ _ _ h, lookup_cons_eq _ _ _ _ h]
    · rw [lookup_cons_ne _ _ _ _ h, lookup_cons_ne _ _ _ _ h]
      exact ih

/-- `LOS` of a point with itself is the single-cell line. -/
lemma LOS_self (a : Int) : LOS a a = [a] := by
  unfold LOS
  simp [losRun]

/-- C10: calling AStar with source equal to target returns the empty (but
non-absent) path and an empty visitation record, for every classifier and
every fuel: `LOS(p, p) = [p]` has no interior, so the line-of-sight
shortcut always fires before `check` could be consulted (the result does
not depend on `check` at all). -/
theorem C10_astar_self (p : Int) (check : Int → Status) (fuel : Nat) :
    AStar p p check fuel = some (some [], []) := by
  unfold AStar
  rw [LOS_self]
  simp

/-- C2: when every interior cell of `LOS(source, target)` classifies FREE,
AStar returns exactly the line minus its source, and the search phase is
never entered: nothing is appended to the record, for any fuel (even 0). -/
theorem C2_astar_los_shortcut (source target : Int) (check : Int → Status) (fuel : Nat)
    (hfree : ∀ p ∈ ((LOS source target).drop 1).dropLast, check p = Status.FREE) :
    AStar source target check fuel = some (some ((LOS source target).drop 1), []) := by
  unfold AStar
  rw [if_pos hfree]

/-- C2 witness: a fully FREE straight line, with zero fuel. -/
theorem C2_astar_los_shortcut_witness :
    AStar (Point.make 0 0) (Point.make 2 0) (fun _ => Status.FREE) 0 =
      some (some ((LOS (Point.make 0 0) (Point.make 2 0)).drop 1), []) :=
  C2_astar_los_shortcut (Point.make 0 0) (Point.make 2 0) (fun _ => Status.FREE) 0
    (by decide)

/-- C7: in the expansion step for direction `i`, if the neighbor already has
a registry node `e`, the forward-direction bit is OR-ed into `e.bits`
unconditionally; distance, score and parent change if and only if the new
tentative distance is strictly smaller, in which case the score moves by
exactly the distance delta and the parent becomes the popped node; the
node's point field and every other registry entry and the heap are
untouched. -/
theorem C7_astar_relax (check : Int → Status) (target : Int) (los : List Int)
    (prevKey : Int) (prev : AStarNode) (st : AStarState) (i : Nat)
    (next distance : Int) (e : AStarNode)
    (hskip : prev.bits &&& (1 <<< ((i + 4) % 8)) = 0)
    (hnext : next = Point.add prev.point (Direction.all.getD i 0))
    (htest : (if next = target then Status.FREE else check next) ≠ Status.BLOCKED)
    (hdist : distance = prev.distance + AStarUnitCost +
      (if i % 2 ≠ 0 then AStarDiagonalPenalty else 0) +
      (if (if next = target then Status.FREE else check next) = Status.OCCUPIED
        then AStarOccupiedPenalty else 0))
    (hex : regGet st.reg (Point.key next) = some e) :
    (AStarVisit check target los prevKey prev st i).heap = st.heap ∧
    (distance < e.distance →
      regGet (AStarVisit check target los prevKey prev st i).reg (Point.key next) =
        some ⟨e.point, some prevKey, e.bits ||| (1 <<< i), distance,
              e.score + (distance - e.distance)⟩) ∧
    (e.distance ≤ distance →
      regGet (AStarVisit check target los prevKey prev st i).reg (Point.key next) =
        some ⟨e.point, e.parent, e.bits ||| (1 <<< i), e.distance, e.score⟩) ∧
    (∀ k2, k2 ≠ Point.key next →
      regGet (AStarVisit check target los prevKey prev st i).reg k2 =
        regGet st.reg k2) := by
  unfold AStarVisit
  dsimp only
  rw [if_neg (by simp [hskip])]
  subst hnext
  rw [if_neg htest]
  rw [hex]
  dsimp only
  rw [← hdist]
  split
  · rename_i hle
    refine ⟨rfl, ?_, ?_, ?_⟩
    · intro hlt
      exact absurd hlt (not_lt.mpr hle)
    · intro _
      rw [regGet_regUpd, if_pos rfl, hex]
      rfl
    · intro k2 hk2
      rw [regGet_regUpd, if_neg hk2]
  · rename_i hgt
    refine ⟨rfl, ?_, ?_, ?_⟩
    · intro _
      rw [regGet_regUpd, if_pos rfl, hex]
      rfl
    · intro hle
      exact absurd hle hgt
    · intro k2 hk2
      rw [regGet_regUpd, if_neg hk2]

/-- C7 witness: a concrete relaxation of an existing neighbor node. -/
theorem C7_astar_relax_witness :
    (AStarVisit (fun _ => Status.FREE) (Point.make 9 9) [] (Point.key (Point.make 0 0))
        ⟨Point.make 0 0, none, 0, 0, 0⟩
        ⟨[(Point.key (Point.make 0 0), ⟨Point.make 0 0, none, 0, 0, 0⟩),
          (Point.key (Point.make 1 0), ⟨Point.make 1 0, some 99, 4, 100, 120⟩)],
          [Point.key (Point.make 1 0)]⟩ 2).heap = [Point.key (Point.make 1 0)] ∧
    regGet (AStarVisit (fun _ => Status.FREE) (Point.make 9 9) [] (Point.key (Point.make 0 0))
        ⟨Point.make 0 0, none, 0, 0, 0⟩
        ⟨[(Point.key (Point.make 0 0), ⟨Point.make 0 0, none, 0, 0, 0⟩),
          (Point.key (Point.make 1 0), ⟨Point.make 1 0, some 99, 4, 100, 120⟩)],
          [Point.key (Point.make 1 0)]⟩ 2).reg (Point.key (Point.make 1 0)) =
      some ⟨Point.make 1 0, some (Point.key (Point.make 0 0)), 4, 16, 36⟩ := by
  have h := C7_astar_relax (fun _ => Status.FREE) (Point.make 9 9) []
    (Point.key (Point.make 0 0)) ⟨Point.make 0 0, none, 0, 0, 0⟩
    ⟨[(Point.key (Point.make 0 0), ⟨Point.make 0 0, none, 0, 0, 0⟩),
      (Point.key (Point.make 1 0), ⟨Point.make 1 0, some 99, 4, 100, 120⟩)],
      [Point.key (Point.make 1 0)]⟩ 2 (Point.make 1 0) 16
    ⟨Point.make 1 0, some 99, 4, 100, 120⟩ (by decide) (by decide) (by decide)
    (by decide) (by decide)
  refine ⟨h.1, ?_⟩
  rw [h.2.1 (by decide)]
  decide

lemma regUpd_length (reg : AStarReg) (k : Int) (n : AStarNode) :
    (regUpd reg k n).length = reg.length := by
  simp [regUpd]

lemma regSet_length (reg : AStarReg) (k : Int) (n : AStarNode) :
    (regSet reg k n).length = reg.length + 1 := by
  simp [regSet]

/-- Case analysis of one expansion step: it either leaves the state alone,
updates the existing neighbor node in place (bits always OR-ed, the other
fields relaxed only on a strict improvement), or creates a fresh node and
pushes it. -/
lemma AStarVisit_cases (check : Int → Status) (target : Int) (los : List Int)
    (prevKey : Int) (prev : AStarNode) (st : AStarState) (i : Nat) (hi : i < 8) :
    AStarVisit check target los prevKey prev st i = st ∨
    (∃ key e n, regGet st.reg key = some e ∧ Adjacent prev.point key ∧
      (AStarVisit check target los prevKey prev st i).reg = regUpd st.reg key n ∧
      (AStarVisit check target los prevKey prev st i).heap = st.heap ∧
      n.point = e.point ∧ n.bits = e.bits ||| (1 <<< i) ∧
      ((n.distance = e.distance ∧ n.score = e.score ∧ n.parent = e.parent) ∨
       (n.parent = some prevKey ∧ prev.distance < n.distance ∧ n.distance < e.distance))) ∨
    (∃ key n, regGet st.reg key = none ∧ Adjacent prev.point key ∧
      (AStarVisit check target los prevKey prev st i).reg = regSet st.reg key n ∧
      (AStarVisit check target los prevKey prev st i).heap = st.heap ++ [key] ∧
      n.point = key ∧ n.parent = some prevKey ∧ n.bits = 1 <<< i ∧
      prev.distance < n.distance ∧
      (key = target ∨ check key ≠ Status.BLOCKED)) := by
  have hmem : Direction.all.getD i 0 ∈ Direction.all := by
    interval_cases i <;> decide
  have hadj : Adjacent prev.point (Point.add prev.point (Direction.all.getD i 0)) :=
    ⟨Direction.all.getD i 0, hmem, rfl⟩
  have hcost0 : (0 : Int) ≤ (if i % 2 ≠ 0 then AStarDiagonalPenalty else 0) := by
    split <;> norm_num [AStarDiagonalPenalty]
  have hcost1 : (0 : Int) ≤
      (if (if Point.add prev.point (Direction.all.getD i 0) = target then Status.FREE
          else check (Point.add prev.point (Direction.all.getD i 0))) = Status.OCCUPIED
        then AStarOccupiedPenalty else 0) := by
    split <;> split <;> norm_num [AStarOccupiedPenalty]
  have hunit : (0 : Int) < AStarUnitCost := by norm_num [AStarUnitCost]
  by_cases h1 : prev.bits &&& (1 <<< ((i + 4) % 8)) ≠ 0
  · left
    unfold AStarVisit
    dsimp only
    rw [if_pos h1]
  · by_cases h2 : (if Point.add prev.point (Direction.all.getD i 0) = target
        then Status.FREE
        else check (Point.add prev.point (Direction.all.getD i 0))) = Status.BLOCKED
    · left
      unfold AStarVisit
      dsimp only
      rw [if_neg h1, if_pos h2]
    · have htest : Point.add prev.point (Direction.all.getD i 0) = target ∨
          check (Point.add prev.point (Direction.all.getD i 0)) ≠ Status.BLOCKED := by
        by_cases hq : Point.add prev.point (Direction.all.getD i 0) = target
        · exact Or.inl hq
        · rw [if_neg hq] at h2
          exact Or.inr h2
      cases hreg : regGet st.reg (Point.key (Point.add prev.point (Direction.all.getD i 0))) with
      | some e =>
        right
        left
        refine ⟨Point.add prev.point (Direction.all.getD i 0), e, ?_⟩
        unfold AStarVisit
        dsimp only
        rw [if_neg h1, if_neg h2]
        rw [hreg]
        dsimp only
        by_cases hle : e.distance ≤ prev.distance + AStarUnitCost +
            (if i % 2 ≠ 0 then AStarDiagonalPenalty else 0) +
            (if (if Point.add prev.point (Direction.all.getD i 0) = target
                then Status.FREE
                else check (Point.add prev.point (Direction.all.getD i 0))) =
                Status.OCCUPIED then AStarOccupiedPenalty else 0)
        · rw [if_pos hle]
          exact ⟨⟨e.point, e.parent, e.bits ||| (1 <<< i), e.distance, e.score⟩, hreg, hadj,
            rfl, rfl, rfl, rfl, Or.inl ⟨rfl, rfl, rfl⟩⟩
        · rw [if_neg hle]
          refine ⟨⟨e.point, some prevKey, e.bits ||| (1 <<< i),
            prev.distance + AStarUnitCost +
              (if i % 2 ≠ 0 then AStarDiagonalPenalty else 0) +
              (if (if Point.add prev.point (Direction.all.getD i 0) = target
                  then Status.FREE
                  else check (Point.add prev.point (Direction.all.getD i 0))) =
                  Status.OCCUPIED then AStarOccupiedPenalty else 0),
            e.score +
              (prev.distance + AStarUnitCost +
                (if i % 2 ≠ 0 then AStarDiagonalPenalty else 0) +
                (if (if Point.add prev.point (Direction.all.getD i 0) = target
                    then Status.FREE
                    else check (Point.add prev.point (Direction.all.getD i 0))) =
                    Status.OCCUPIED then AStarOccupiedPenalty else 0) - e.distance)⟩,
            hreg, hadj, rfl, rfl, rfl, rfl, Or.inr ⟨rfl, by dsimp only; omega, by
              dsimp only
              omega⟩⟩
      | none =>
        right
        right
        refine ⟨Point.add prev.point (Direction.all.getD i 0),
          ⟨Point.add prev.point (Direction.all.getD i 0), some prevKey, 1 <<< i,
            prev.distance + AStarUnitCost +
              (if i % 2 ≠ 0 then AStarDiagonalPenalty else 0) +
              (if (if Point.add prev.point (Direction.all.getD i 0) = target
                  then Status.FREE
                  else check (Point.add prev.point (Direction.all.getD i 0))) =
                  Status.OCCUPIED then AStarOccupiedPenalty else 0),
            prev.distance + AStarUnitCost +
              (if i % 2 ≠ 0 then AStarDiagonalPenalty else 0) +
              (if (if Point.add prev.point (Direction.all.getD i 0) = target
                  then Status.FREE
                  else check (Point.add prev.point (Direction.all.getD i 0))) =
                  Status.OCCUPIED then AStarOccupiedPenalty else 0) +
              AStarHeuristic (Point.add prev.point (Direction.all.getD i 0)) los⟩,
          hreg, hadj, ?_, ?_, rfl, rfl, rfl, by dsimp only; omega, htest⟩
        · unfold AStarVisit
          dsimp only
          rw [if_neg h1, if_neg h2]
          rw [hreg]
          rfl
        · unfold AStarVisit
          dsimp only
          rw [if_neg h1, if_neg h2]
          rw [hreg]
          rfl

lemma regGet_some_mem (reg : AStarReg) (k : Int) (n : AStarNode)
    (h : regGet reg k = some n) : (k, n) ∈ reg := by
  induction reg with
  | nil => simp [regGet, List.lookup] at h
  | cons e t ih =>
    obtain ⟨ek, ev⟩ := e
    by_cases hk : k = ek
    · rw [regGet, lookup_cons_eq _ _ _ _ hk] at h
      subst hk
      simp [Option.some.inj h]
    · rw [regGet, lookup_cons_ne _ _ _ _ hk] at h
      exact List.mem_cons_of_mem _ (ih h)

lemma regGet_none_key (reg : AStarReg) (k : Int) (h : regGet reg k = none) :
    k ∉ reg.map Prod.fst := by
  induction reg with
  | nil => simp
  | cons e t ih =>
    obtain ⟨ek, ev⟩ := e
    by_cases hk : k = ek
    · rw [regGet, lookup_cons_eq _ _ _ _ hk] at h
      simp at h
    · rw [regGet, lookup_cons_ne _ _ _ _ hk] at h
      simpa [hk] using ih h

lemma regUpd_keys (reg : AStarReg) (k : Int) (n : AStarNode) :
    (regUpd reg k n).map Prod.fst = reg.map Prod.fst := by
  induction reg with
  | nil => rfl
  | cons e t ih =>
    obtain ⟨ek, ev⟩ := e
    simp only [regUpd, List.map_cons] at *
    by_cases h : ek = k
    · rw [if_pos h]
      simpa [h] using ih
    · rw [if_neg h]
      simpa using ih

lemma mem_regUpd (reg : AStarReg) (k : Int) (n : AStarNode) (e2 : Int × AStarNode)
    (h : e2 ∈ regUpd reg k n) : (e2 ∈ reg ∧ e2.1 ≠ k) ∨ e2 = (k, n) := by
  obtain ⟨e3, he3, heq⟩ := List.mem_map.mp h
  by_cases hk : e3.1 = k
  · rw [if_pos hk] at heq
    exact Or.inr heq.symm
  · rw [if_neg hk] at heq
    subst heq
    exact Or.inl ⟨he3, hk⟩

lemma adjacent_ne (a b : Int) (h : Adjacent a b) : b ≠ a := by
  obtain ⟨d, hd, rfl⟩ := h
  have : d - kOrigin ≠ 0 := by fin_cases hd <;> decide
  unfold Point.add
  omega

lemma add_dir_ne (p : Int) (i : Nat) (hi : i < 8) :
    Point.add p (Direction.all.getD i 0) ≠ p := by
  have hne : Direction.all.getD i 0 - kOrigin ≠ 0 := by
    interval_cases i <;> decide
  unfold Point.add
  omega

/-- The A* search invariant: registry keys are the node points and are
distinct, the heap references registry nodes, parent pointers are absent
exactly at the source, point to adjacent strictly-closer registry nodes
otherwise, every registered point is the source, the target, or
non-blocked, distances are non-negative, and the source node has distance
zero. -/
structure AStarInv (source target : Int) (check : Int → Status) (st : AStarState) : Prop where
  keys_eq : ∀ e ∈ st.reg, e.1 = e.2.point
  keys_nodup : (st.reg.map Prod.fst).Nodup
  heap_sub : ∀ k ∈ st.heap, (regGet st.reg k).isSome
  parent_src : ∀ e ∈ st.reg, (e.2.parent = none ↔ e.2.point = source)
  src_node : ∃ n0, regGet st.reg source = some n0 ∧ n0.distance = 0
  parent_ok : ∀ e ∈ st.reg, ∀ pk, e.2.parent = some pk →
    ∃ pe, regGet st.reg pk = some pe ∧ Adjacent pe.point e.2.point ∧
      pe.distance < e.2.distance
  point_ok : ∀ e ∈ st.reg, e.2.point = source ∨ e.2.point = target ∨
    check e.2.point ≠ Status.BLOCKED
  dist_nonneg : ∀ e ∈ st.reg, 0 ≤ e.2.distance

lemma regGet_regSet_of_some (reg : AStarReg) (k k2 : Int) (n m : AStarNode)
    (h : regGet reg k2 = some m) : regGet (regSet reg k n) k2 = some m := by
  rw [regGet_regSet, h]

lemma regGet_regSet_self (reg : AStarReg) (k : Int) (n : AStarNode)
    (h : regGet reg k = none) : regGet (regSet reg k n) k = some n := by
  rw [regGet_regSet, h]
  simp

/-- One expansion step preserves the search invariant and never touches the
popped node's registry entry. -/
lemma AStarInv_visit (source target : Int) (check : Int → Status) (los : List Int)
    (prevKey : Int) (prev : AStarNode) (st : AStarState) (i : Nat) (hi : i < 8)
    (hinv : AStarInv source target check st)
    (hprev : regGet st.reg prevKey = some prev) :
    AStarInv source target check (AStarVisit check target los prevKey prev st i) ∧
    regGet (AStarVisit check target los prevKey prev st i).reg prevKey = some prev := by
  have hprevmem : (prevKey, prev) ∈ st.reg := regGet_some_mem _ _ _ hprev
  have hprevpt : prevKey = prev.point := hinv.keys_eq _ hprevmem
  have hprevd : 0 ≤ prev.distance := hinv.dist_nonneg _ hprevmem
  rcases AStarVisit_cases check target los prevKey prev st i hi with hA |
    ⟨key, e, n, hreg, hadj, hregEq, hheapEq, hpoint, hbits, hrest⟩ |
    ⟨key, n, hregN, hadj, hregEq, hheapEq, hpoint, hparent, hbits, hdistgt, hstat⟩
  · rw [hA]
    exact ⟨hinv, hprev⟩
  · -- existing-node update
    have hkey_e : (key, e) ∈ st.reg := regGet_some_mem _ _ _ hreg
    have hkeypt : key = e.point := hinv.keys_eq _ hkey_e
    have hkeyne : key ≠ prevKey := by
      rw [hprevpt]
      exact adjacent_ne _ _ hadj
    have hnd : n.distance ≤ e.distance := by
      rcases hrest with ⟨hd, _, _⟩ | ⟨_, _, hlt⟩
      · omega
      · omega
    have he_src_relax : (n.parent = some prevKey ∧ prev.distance < n.distance ∧
        n.distance < e.distance) → e.point ≠ source := by
      rintro ⟨_, hlt1, hlt2⟩ hsrc
      obtain ⟨n0, hn0, hd0⟩ := hinv.src_node
      have : regGet st.reg source = some e := by
        rw [← hsrc, ← hkeypt]
        exact hreg
      rw [this] at hn0
      have : e.distance = 0 := by rw [Option.some.inj hn0]; exact hd0
      omega
    refine ⟨⟨?_, ?_, ?_, ?_, ?_, ?_, ?_, ?_⟩, ?_⟩
    · intro e2 he2
      rw [hregEq] at he2
      rcases mem_regUpd _ _ _ _ he2 with ⟨hmem, _⟩ | heq2
      · exact hinv.keys_eq _ hmem
      · subst heq2
        rw [show ((key, n) : Int × AStarNode).2.point = n.point from rfl, hpoint]
        exact hkeypt
    · rw [hregEq, regUpd_keys]
      exact hinv.keys_nodup
    · intro k2 hk2
      rw [hheapEq] at hk2
      rw [hregEq, regGet_regUpd]
      by_cases h : k2 = key
      · rw [if_pos h, hreg]
        simp
      · rw [if_neg h]
        exact hinv.heap_sub _ hk2
    · intro e2 he2
      rw [hregEq] at he2
      rcases mem_regUpd _ _ _ _ he2 with ⟨hmem, _⟩ | heq2
      · exact hinv.parent_src _ hmem
      · subst heq2
        show n.parent = none ↔ n.point = source
        rcases hrest with ⟨hd, hs, hpar⟩ | hrelax
        · rw [hpar, hpoint]
          exact hinv.parent_src _ hkey_e
        · rw [hrelax.1, hpoint]
          exact iff_of_false (by simp) (he_src_relax hrelax)
    · obtain ⟨n0, hn0, hd0⟩ := hinv.src_node
      by_cases hks : source = key
      · rcases hrest with ⟨hd, _, _⟩ | hrelax
        · refine ⟨n, ?_, ?_⟩
          · rw [hregEq, regGet_regUpd, if_pos hks, hreg]
            rfl
          · have he0 : e = n0 := by
              rw [hks] at hn0
              rw [hreg] at hn0
              exact Option.some.inj hn0
            rw [hd, he0]
            exact hd0
        · exact absurd (by rw [← hkeypt, ← hks] : e.point = source)
            (he_src_relax hrelax)
      · refine ⟨n0, ?_, hd0⟩
        rw [hregEq, regGet_regUpd, if_neg hks]
        exact hn0
    · intro e2 he2 pk hpk
      rw [hregEq] at he2
      rw [hregEq]
      rcases mem_regUpd _ _ _ _ he2 with ⟨hmem, _⟩ | heq2
      · obtain ⟨pe, hpe, hadj2, hlt⟩ := hinv.parent_ok _ hmem pk hpk
        by_cases hpkk : pk = key
        · have hpee : pe = e := by
            rw [hpkk, hreg] at hpe
            exact (Option.some.inj hpe).symm
          refine ⟨n, ?_, ?_, ?_⟩
          · rw [regGet_regUpd, if_pos hpkk, hreg]
            rfl
          · rw [hpoint, ← hpee]
            exact hadj2
          · have hlt2 : e.distance < e2.2.distance := by
              rw [hpee] at hlt
              exact hlt
            have hgoal : n.distance < e2.2.distance := by omega
            exact hgoal
        · exact ⟨pe, by rw [regGet_regUpd, if_neg hpkk]; exact hpe, hadj2, hlt⟩
      · subst heq2
        rcases hrest with ⟨hd, hs, hpar⟩ | ⟨hpar, hlt1, hlt2⟩
        · have hpk2 : e.parent = some pk := by rw [← hpar]; exact hpk
          obtain ⟨pe, hpe, hadj2, hlt⟩ := hinv.parent_ok _ hkey_e pk hpk2
          by_cases hpkk : pk = key
          · have hpee : pe = e := by
              rw [hpkk, hreg] at hpe
              exact (Option.some.inj hpe).symm
            have hlt3 : e.distance < e.distance := by
              rw [hpee] at hlt
              exact hlt
            exact absurd hlt3 (lt_irrefl _)
          · refine ⟨pe, by rw [regGet_regUpd, if_neg hpkk]; exact hpe, ?_, ?_⟩
            · rw [show ((key, n) : Int × AStarNode).2.point = n.point from rfl, hpoint]
              exact hadj2
            · rw [show ((key, n) : Int × AStarNode).2.distance = n.distance from rfl, hd]
              exact hlt
        · have hpk2 : pk = prevKey := by
            have := hpk
            rw [hpar] at this
            exact (Option.some.inj this).symm
          refine ⟨prev, ?_, ?_, ?_⟩
          · rw [regGet_regUpd, if_neg (by rw [hpk2]; exact fun hc => hkeyne hc.symm)]
            rw [hpk2]
            exact hprev
          · rw [show ((key, n) : Int × AStarNode).2.point = n.point from rfl, hpoint,
              ← hkeypt]
            exact hadj
          · rw [show ((key, n) : Int × AStarNode).2.distance = n.distance from rfl]
            omega
    · intro e2 he2
      rw [hregEq] at he2
      rcases mem_regUpd _ _ _ _ he2 with ⟨hmem, _⟩ | heq2
      · exact hinv.point_ok _ hmem
      · subst heq2
        rw [show ((key, n) : Int × AStarNode).2.point = n.point from rfl, hpoint]
        exact hinv.point_ok _ hkey_e
    · intro e2 he2
      rw [hregEq] at he2
      rcases mem_regUpd _ _ _ _ he2 with ⟨hmem, _⟩ | heq2
      · exact hinv.dist_nonneg _ hmem
      · subst heq2
        have h9 : (0 : Int) ≤ e.distance := hinv.dist_nonneg _ hkey_e
        rcases hrest with ⟨hd, _, _⟩ | ⟨_, hlt1, _⟩
        · show 0 ≤ n.distance
          omega
        · show 0 ≤ n.distance
          omega
    · rw [hregEq, regGet_regUpd, if_neg (fun hc => hkeyne hc.symm)]
      exact hprev
  · -- fresh-node creation
    have hkeyne : key ≠ source := by
      intro hc
      obtain ⟨n0, hn0, _⟩ := hinv.src_node
      rw [hc, hn0] at hregN
      exact Option.noConfusion hregN
    refine ⟨⟨?_, ?_, ?_, ?_, ?_, ?_, ?_, ?_⟩, ?_⟩
    · intro e2 he2
      rw [hregEq] at he2
      rcases List.mem_append.mp he2 with hmem | hmem
      · exact hinv.keys_eq _ hmem
      · rw [List.mem_singleton.mp hmem]
        exact hpoint.symm
    · rw [hregEq]
      show ((st.reg ++ [(key, n)]).map Prod.fst).Nodup
      rw [List.map_append]
      refine List.Nodup.append hinv.keys_nodup (List.nodup_singleton _) ?_
      intro x hx hx2
      rw [List.map_singleton, List.mem_singleton] at hx2
      subst hx2
      exact regGet_none_key _ _ hregN hx
    · intro k2 hk2
      rw [hheapEq] at hk2
      rw [hregEq]
      rcases List.mem_append.mp hk2 with hmem | hmem
      · obtain ⟨m, hm⟩ := Option.isSome_iff_exists.mp (hinv.heap_sub _ hmem)
        rw [regGet_regSet_of_some _ _ _ _ _ hm]
        rfl
      · rw [List.mem_singleton.mp hmem, regGet_regSet_self _ _ _ hregN]
        rfl
    · intro e2 he2
      rw [hregEq] at he2
      rcases List.mem_append.mp he2 with hmem | hmem
      · exact hinv.parent_src _ hmem
      · rw [List.mem_singleton.mp hmem]
        show n.parent = none ↔ n.point = source
        rw [hparent, hpoint]
        exact iff_of_false (by simp) hkeyne
    · obtain ⟨n0, hn0, hd0⟩ := hinv.src_node
      exact ⟨n0, by rw [hregEq]; exact regGet_regSet_of_some _ _ _ _ _ hn0, hd0⟩
    · intro e2 he2 pk hpk
      rw [hregEq] at he2
      rw [hregEq]
      rcases List.mem_append.mp he2 with hmem | hmem
      · obtain ⟨pe, hpe, hadj2, hlt⟩ := hinv.parent_ok _ hmem pk hpk
        exact ⟨pe, regGet_regSet_of_some _ _ _ _ _ hpe, hadj2, hlt⟩
      · rw [List.mem_singleton.mp hmem] at hpk ⊢
        have hpk2 : pk = prevKey := by
          have := hpk
          rw [show ((key, n) : Int × AStarNode).2.parent = n.parent from rfl, hparent] at this
          exact (Option.some.inj this).symm
        refine ⟨prev, ?_, ?_, ?_⟩
        · rw [hpk2]
          exact regGet_regSet_of_some _ _ _ _ _ hprev
        · rw [show ((key, n) : Int × AStarNode).2.point = n.point from rfl, hpoint]
          exact hadj
        · rw [show ((key, n) : Int × AStarNode).2.distance = n.distance from rfl]
          omega
    · intro e2 he2
      rw [hregEq] at he2
      rcases List.mem_append.mp he2 with hmem | hmem
      · exact hinv.point_ok _ hmem
      · rw [List.mem_singleton.mp hmem]
        show n.point = source ∨ n.point = target ∨ check n.point ≠ Status.BLOCKED
        rw [hpoint]
        rcases hstat with h | h
        · exact Or.inr (Or.inl h)
        · exact Or.inr (Or.inr h)
    · intro e2 he2
      rw [hregEq] at he2
      rcases List.mem_append.mp he2 with hmem | hmem
      · exact hinv.dist_nonneg _ hmem
      · rw [List.mem_singleton.mp hmem]
        show (0 : Int) ≤ n.distance
        omega
    · rw [hregEq]
      exact regGet_regSet_of_some _ _ _ _ _ hprev

lemma mem_of_getLast?_eq (l : List α) (a : α) (h : l.getLast? = some a) : a ∈ l := by
  cases l with
  | nil => simp at h
  | cons x xs =>
    rw [List.getLast?_eq_getLast _ (by simp)] at h
    rw [← Option.some.inj h]
    exact List.getLast_mem _

/-- A strict version of `countP` monotonicity: a witness satisfying only the
larger predicate makes the count strictly bigger. -/
lemma countP_lt (l : List α) (p q : α → Bool) (himp : ∀ a ∈ l, p a = true → q a = true)
    (x : α) (hx : x ∈ l) (hpx : ¬ p x = true) (hqx : q x = true) :
    l.countP p < l.countP q := by
  induction l with
  | nil => simp at hx
  | cons a t ih =>
    rw [List.countP_cons, List.countP_cons]
    rcases List.mem_cons.mp hx with rfl | hx2
    · have h1 : t.countP p ≤ t.countP q :=
        List.countP_mono_left (fun b hb h => himp b (List.mem_cons_of_mem _ hb) h)
      rw [if_neg hpx, if_pos hqx]
      omega
    · have h2 := ih (fun b hb h => himp b (List.mem_cons_of_mem _ hb) h) hx2
      by_cases hpa : p a = true
      · rw [if_pos hpa, if_pos (himp a (List.mem_cons_self _ _) hpa)]
        omega
      · rw [if_neg hpa]
        split <;> omega

lemma heapRemoveAt_subset (heap : List α) (idx : Nat) :
    ∀ x ∈ heapRemoveAt heap idx, x ∈ heap := by
  intro x hx
  unfold heapRemoveAt at hx
  cases hq : heap.getLast? with
  | none =>
    rw [hq] at hx
    exact List.dropLast_subset _ hx
  | some p =>
    rw [hq] at hx
    dsimp only at hx
    split at hx
    · rcases List.mem_or_eq_of_mem_set hx with h | h
      · exact List.dropLast_subset _ h
      · subst h
        exact mem_of_getLast?_eq _ _ hq
    · exact List.dropLast_subset _ hx

/-- Removing a heap element preserves the invariant. -/
lemma AStarInv_pop (source target : Int) (check : Int → Status) (st : AStarState)
    (idx : Nat) (hinv : AStarInv source target check st) :
    AStarInv source target check ⟨st.reg, heapRemoveAt st.heap idx⟩ := by
  refine ⟨hinv.keys_eq, hinv.keys_nodup, ?_, hinv.parent_src, hinv.src_node,
    hinv.parent_ok, hinv.point_ok, hinv.dist_nonneg⟩
  intro k hk
  exact hinv.heap_sub _ (heapRemoveAt_subset _ _ _ hk)

/-- The expansion fold preserves the invariant and the popped node's entry. -/
lemma AStarInv_fold (source target : Int) (check : Int → Status) (los : List Int)
    (prevKey : Int) (prev : AStarNode) :
    ∀ (l : List Nat), (∀ j ∈ l, j < 8) → ∀ st, AStarInv source target check st →
      regGet st.reg prevKey = some prev →
      AStarInv source target check
        (l.foldl (AStarVisit check target los prevKey prev) st) ∧
      regGet (l.foldl (AStarVisit check target los prevKey prev) st).reg prevKey =
        some prev := by
  intro l
  induction l with
  | nil =>
    intro _ st hinv hprev
    exact ⟨hinv, hprev⟩
  | cons j t ih =>
    intro hj st hinv hprev
    simp only [List.foldl_cons]
    obtain ⟨h1, h2⟩ := AStarInv_visit source target check los prevKey prev st j
      (hj j (List.mem_cons_self _ _)) hinv hprev
    exact ih (fun x hx => hj x (List.mem_cons_of_mem _ hx)) _ h1 h2

/-- The initial search state satisfies the invariant. -/
lemma AStarInv_init (source target : Int) (check : Int → Status) (score : Int) :
    AStarInv source target check
      ⟨[(Point.key source, ⟨source, none, 0, 0, score⟩)], [Point.key source]⟩ := by
  have hget : regGet [(Point.key source, (⟨source, none, 0, 0, score⟩ : AStarNode))]
      source = some ⟨source, none, 0, 0, score⟩ :=
    lookup_cons_eq _ _ _ _ rfl
  refine ⟨?_, ?_, ?_, ?_, ?_, ?_, ?_, ?_⟩
  · intro e he
    rw [List.mem_singleton.mp he]
    rfl
  · simp
  · intro k hk
    rw [List.mem_singleton.mp hk]
    show (regGet [(Point.key source, (⟨source, none, 0, 0, score⟩ : AStarNode))]
      (Point.key source)).isSome = true
    rw [show (Point.key source : Int) = source from rfl] at hget ⊢
    rw [hget]
    rfl
  · intro e he
    rw [List.mem_singleton.mp he]
    simp
  · exact ⟨⟨source, none, 0, 0, score⟩, hget, rfl⟩
  · intro e he pk hpk
    rw [List.mem_singleton.mp he] at hpk
    exact absurd hpk (by simp)
  · intro e he
    rw [List.mem_singleton.mp he]
    exact Or.inl rfl
  · intro e he
    rw [List.mem_singleton.mp he]

/-- Walking the parent chain from any registry node yields (reversed) a path
of single-step moves from the source to that node's point, and every cell on
it is the point of a non-source registry node (hence the target or a
non-blocked cell).  The fuel needs to exceed the number of registry entries
closer than the node, which shrinks strictly along the chain. -/
lemma walkParents_spec (source target : Int) (check : Int → Status) (st : AStarState)
    (hinv : AStarInv source target check st) :
    ∀ (fuel : Nat) (n : AStarNode) (k : Int), regGet st.reg k = some n →
      st.reg.countP (fun e => decide (e.2.distance < n.distance)) < fuel →
      List.Chain' Adjacent (source :: (walkParents st.reg fuel n).reverse) ∧
      (source :: (walkParents st.reg fuel n).reverse).getLast? = some n.point ∧
      ∀ c ∈ walkParents st.reg fuel n, c = target ∨ check c ≠ Status.BLOCKED := by
  intro fuel
  induction fuel with
  | zero =>
    intro n k hk hcount
    exact absurd hcount (Nat.not_lt_zero _)
  | succ f ih =>
    intro n k hk hcount
    have hmemn : (k, n) ∈ st.reg := regGet_some_mem _ _ _ hk
    cases hp : n.parent with
    | none =>
      have hpt : n.point = source := (hinv.parent_src _ hmemn).mp hp
      simp only [walkParents, hp]
      exact ⟨List.chain'_singleton _, by simp [hpt], by simp⟩
    | some pk =>
      obtain ⟨pe, hpe, hadj2, hlt⟩ := hinv.parent_ok _ hmemn pk hp
      have hmempe : (pk, pe) ∈ st.reg := regGet_some_mem _ _ _ hpe
      have hlt2 : pe.distance < n.distance := hlt
      have hcnt : st.reg.countP (fun e => decide (e.2.distance < pe.distance)) <
          st.reg.countP (fun e => decide (e.2.distance < n.distance)) := by
        refine countP_lt _ _ _ ?_ (pk, pe) hmempe (by simp) (by simp [hlt2])
        intro a _ ha
        simp only [decide_eq_true_eq] at ha ⊢
        omega
      obtain ⟨hch, hlast, hmem⟩ := ih pe pk hpe (by omega)
      simp only [walkParents, hp, hpe]
      have hsplit : source :: (n.point :: walkParents st.reg f pe).reverse =
          (source :: (walkParents st.reg f pe).reverse) ++ [n.point] := by
        rw [List.reverse_cons]
        rfl
      refine ⟨?_, ?_, ?_⟩
      · rw [hsplit, List.chain'_append]
        refine ⟨hch, List.chain'_singleton _, ?_⟩
        intro x hx y hy
        rw [hlast] at hx
        simp only [Option.mem_def, Option.some.injEq] at hx
        simp only [List.head?_cons, Option.mem_def, Option.some.injEq] at hy
        rw [← hx, ← hy]
        exact hadj2
      · rw [hsplit, List.getLast?_concat]
      · intro c hc
        rcases List.mem_cons.mp hc with rfl | hc2
        · have hne : n.point ≠ source := by
            intro hcon
            have h0 := (hinv.parent_src _ hmemn).mpr hcon
            rw [hp] at h0
            exact Option.noConfusion h0
          rcases hinv.point_ok _ hmemn with h | h | h
          · exact absurd h hne
          · exact Or.inl h
          · exact Or.inr h
        · exact hmem c hc2

/-- Path reconstruction from a registry node is a single-step chain from the
source ending at the node's point, through target-or-non-blocked cells. -/
lemma AStarPathRebuild_spec (source target : Int) (check : Int → Status)
    (st : AStarState) (hinv : AStarInv source target check st) (n : AStarNode)
    (k : Int) (hk : regGet st.reg k = some n) :
    List.Chain' Adjacent (source :: AStarPathRebuild st.reg n) ∧
    (source :: AStarPathRebuild st.reg n).getLast? = some n.point ∧
    ∀ c ∈ AStarPathRebuild st.reg n, c = target ∨ check c ≠ Status.BLOCKED := by
  have hcount : st.reg.countP (fun e => decide (e.2.distance < n.distance)) <
      st.reg.length + 1 :=
    Nat.lt_succ_of_le (List.countP_le_length _)
  obtain ⟨h1, h2, h3⟩ := walkParents_spec source target check st hinv
    (st.reg.length + 1) n k hk hcount
  exact ⟨h1, h2, fun c hc => h3 c (List.mem_reverse.mp (by
    unfold AStarPathRebuild at hc
    exact List.mem_reverse.mpr (List.mem_reverse.mp hc)))⟩

/-- The extracted index of a non-empty heap is in bounds. -/
lemma extractMinIndex_lt (reg : AStarReg) (k0 : Int) (hrest : List Int) :
    extractMinIndex (heapScores reg (k0 :: hrest)) < (k0 :: hrest).length := by
  have h := (extractMinIndex_spec (((regGet reg k0).getD default).score)
    (hrest.map (fun k => ((regGet reg k).getD default).score))).1
  simp only [List.length_cons, List.length_map] at h
  simpa [heapScores] using h

/-- If the fueled A* loop returns a path, that path (with the source
prepended) is a single-step chain from source to target through cells that
are the target or non-blocked. -/
lemma AStarLoop_path (source target : Int) (check : Int → Status) (los : List Int) :
    ∀ (fuel : Nat) (st : AStarState) (record path rec2 : List Int),
      AStarInv source target check st →
      AStarLoop check target los fuel st record = some (some path, rec2) →
      List.Chain' Adjacent (source :: path) ∧
      (source :: path).getLast? = some target ∧
      ∀ c ∈ path, c = target ∨ check c ≠ Status.BLOCKED := by
  intro fuel
  induction fuel with
  | zero =>
    intro st record path rec2 hinv h
    exact absurd h (by simp [AStarLoop])
  | succ f ih =>
    intro st record path rec2 hinv h
    unfold AStarLoop at h
    cases hh : st.heap with
    | nil =>
      rw [hh] at h
      simp at h
    | cons k0 krest =>
      rw [hh] at h
      dsimp only at h
      rw [← hh] at h
      have hidx : extractMinIndex (heapScores st.reg st.heap) < st.heap.length := by
        rw [hh]
        exact extractMinIndex_lt _ _ _
      have hpkmem : st.heap.getD (extractMinIndex (heapScores st.reg st.heap)) 0 ∈
          st.heap := by
        rw [List.getD_eq_getElem _ _ hidx]
        exact List.getElem_mem _
      obtain ⟨pn, hpn⟩ := Option.isSome_iff_exists.mp (hinv.heap_sub _ hpkmem)
      rw [hpn] at h
      simp only [Option.getD_some] at h
      split at h
      · rename_i htgt
        have hpath : AStarPathRebuild st.reg pn = path :=
          Option.some.inj (Prod.ext_iff.mp (Option.some.inj h)).1
        subst hpath
        have hspec := AStarPathRebuild_spec source target check st hinv pn _ hpn
        refine ⟨hspec.1, ?_, hspec.2.2⟩
        rw [hspec.2.1, htgt]
      · rename_i htgt
        obtain ⟨hinv2, _⟩ := AStarInv_fold source target check los
          (st.heap.getD (extractMinIndex (heapScores st.reg st.heap)) 0) pn
          (List.range 8) (fun j hj => List.mem_range.mp hj)
          ⟨st.reg, heapRemoveAt st.heap (extractMinIndex (heapScores st.reg st.heap))⟩
          (AStarInv_pop source target check st _ hinv) hpn
        exact ih _ _ _ _ hinv2 h

lemma getLast?_cons_of_ne (a : α) (l : List α) (h : l ≠ []) :
    (a :: l).getLast? = l.getLast? := by
  cases l with
  | nil => exact absurd rfl h
  | cons x xs => exact List.getLast?_cons_cons

/-- C1 (counterexample): with a BLOCKED target one step away and every cell
BLOCKED, the line-of-sight shortcut still returns the path `[target]`, which
contains a BLOCKED cell — the claim that no cell of the returned path is
BLOCKED fails. -/
theorem C1_astar_path_counterexample :
    AStar (Point.make 0 0) (Point.make 1 0) (fun _ => Status.BLOCKED) 1 =
      some (some [Point.make 1 0], []) ∧
    (fun _ => Status.BLOCKED) (Point.make 1 0) = Status.BLOCKED := by
  exact ⟨by decide, rfl⟩

/-- C1 (amended): whenever AStar returns a non-absent path, prepending the
source yields a sequence connected by single-step (including diagonal)
moves whose last cell is the target, and no cell of the path other than
(possibly) the target classifies as BLOCKED.  (The target cell itself is
deliberately never checked.) -/
theorem C1_astar_path_amended (source target : Int) (check : Int → Status)
    (fuel : Nat) (path rec2 : List Int)
    (h : AStar source target check fuel = some (some path, rec2)) :
    List.Chain' Adjacent (source :: path) ∧
    (source :: path).getLast? = some target ∧
    ∀ c ∈ path, c = target ∨ check c ≠ Status.BLOCKED := by
  unfold AStar at h
  dsimp only at h
  split at h
  · rename_i hfree
    have hpath : (LOS source target).drop 1 = path :=
      Option.some.inj (Prod.ext_iff.mp (Option.some.inj h)).1
    obtain ⟨l, hl⟩ := LOS_cons source target
    have hdl : (LOS source target).drop 1 = l := by
      rw [hl]
      rfl
    have hsp : source :: path = LOS source target := by
      rw [← hpath, hdl, hl]
    refine ⟨?_, ?_, ?_⟩
    · rw [hsp]
      exact LOS_chain _ _
    · rw [hsp]
      exact LOS_last _ _
    · intro c hc
      rw [← hpath, hdl] at hc
      by_cases hle : l = []
      · rw [hle] at hc
        simp at hc
      · have hlast : l.getLast? = some target := by
          have h2 := LOS_last source target
          rw [hl, getLast?_cons_of_ne _ _ hle] at h2
          exact h2
        have hsplit := List.dropLast_append_getLast hle
        rw [← hsplit] at hc
        rcases List.mem_append.mp hc with hc2 | hc2
        · right
          have hcf : check c = Status.FREE := by
            apply hfree
            rw [hdl]
            exact hc2
          rw [hcf]
          simp
        · left
          have hcg : c = l.getLast hle := List.mem_singleton.mp hc2
          have h3 : l.getLast? = some (l.getLast hle) := List.getLast?_eq_getLast _ _
          rw [hlast] at h3
          rw [hcg, ← Option.some.inj h3]
  · exact AStarLoop_path source target check (LOS source target) fuel _ [] path rec2
      (AStarInv_init source target check _) h

/-- C1 amended witness: a concrete free straight-line search. -/
theorem C1_astar_path_amended_witness :
    List.Chain' Adjacent (Point.make 0 0 ::
      [Point.make 1 0, Point.make 2 0]) ∧
    (Point.make 0 0 :: [Point.make 1 0, Point.make 2 0]).getLast? =
      some (Point.make 2 0) ∧
    ∀ c ∈ [Point.make 1 0, Point.make 2 0], c = Point.make 2 0 ∨
      (fun _ => Status.FREE) c ≠ Status.BLOCKED :=
  C1_astar_path_amended (Point.make 0 0) (Point.make 2 0) (fun _ => Status.FREE) 0
    [Point.make 1 0, Point.make 2 0] [] (by decide)

lemma nodup_subset_length (l1 l2 : List Int) (h1 : l1.Nodup) (h2 : l1 ⊆ l2) :
    l1.length ≤ l2.length :=
  calc l1.length = l1.toFinset.card := (List.toFinset_card_of_nodup h1).symm
    _ ≤ l2.toFinset.card := Finset.card_le_card (fun x hx =>
        List.mem_toFinset.mpr (h2 (List.mem_toFinset.mp hx)))
    _ ≤ l2.length := l2.toFinset_card_le

/-- All registered points lie in the closed cell set `S`. -/
def RegInS (S : List Int) (st : AStarState) : Prop := ∀ e ∈ st.reg, e.2.point ∈ S

/-- Loop termination measure: pending heap entries plus twice the remaining
room in `S` for new registry entries. -/
def loopMeasure (S : List Int) (st : AStarState) : Int :=
  st.heap.length + 2 * ((S.length : Int) - st.reg.length)

/-- One expansion step keeps all registered points inside `S` and does not
increase the termination measure. -/
lemma RegInS_visit (S : List Int) (target : Int) (check : Int → Status) (los : List Int)
    (prevKey : Int) (prev : AStarNode) (st : AStarState) (i : Nat) (hi : i < 8)
    (hclosed : ∀ c ∈ S, ∀ d ∈ Direction.all,
      check (Point.add c d) ≠ Status.BLOCKED → Point.add c d ∈ S)
    (hfar : ∀ c ∈ S, ¬ Adjacent c target)
    (hSreg : RegInS S st) (hprevS : prev.point ∈ S) :
    RegInS S (AStarVisit check target los prevKey prev st i) ∧
    loopMeasure S (AStarVisit check target los prevKey prev st i) ≤ loopMeasure S st := by
  rcases AStarVisit_cases check target los prevKey prev st i hi with hA |
    ⟨key, e, n, hreg, hadj, hregEq, hheapEq, hpoint, hbits, hrest⟩ |
    ⟨key, n, hregN, hadj, hregEq, hheapEq, hpoint, hparent, hbits, hdist, hstat⟩
  · rw [hA]
    exact ⟨hSreg, le_refl _⟩
  · constructor
    · intro e2 he2
      rw [hregEq] at he2
      rcases mem_regUpd _ _ _ _ he2 with ⟨hmem, _⟩ | heq2
      · exact hSreg _ hmem
      · subst heq2
        rw [show ((key, n) : Int × AStarNode).2.point = n.point from rfl, hpoint]
        exact hSreg _ (regGet_some_mem _ _ _ hreg)
    · unfold loopMeasure
      rw [hregEq, hheapEq, regUpd_length]
  · have hkeyS : key ∈ S := by
      obtain ⟨d, hd, hkey⟩ := hadj
      rcases hstat with htg | hnb
      · exact absurd (htg ▸ (⟨d, hd, hkey⟩ : Adjacent prev.point key)) (hfar _ hprevS)
      · rw [hkey]
        exact hclosed _ hprevS d hd (by rw [← hkey]; exact hnb)
    constructor
    · intro e2 he2
      rw [hregEq] at he2
      rcases List.mem_append.mp he2 with hmem | hmem
      · exact hSreg _ hmem
      · rw [List.mem_singleton.mp hmem]
        rw [show ((key, n) : Int × AStarNode).2.point = n.point from rfl, hpoint]
        exact hkeyS
    · unfold loopMeasure
      rw [hregEq, hheapEq, regSet_length, List.length_append, List.length_singleton]
      push_cast
      omega

/-- The expansion fold preserves the full invariant bundle and does not
increase the measure. -/
lemma RegInS_fold (S : List Int) (source target : Int) (check : Int → Status)
    (los : List Int) (prevKey : Int) (prev : AStarNode)
    (hclosed : ∀ c ∈ S, ∀ d ∈ Direction.all,
      check (Point.add c d) ≠ Status.BLOCKED → Point.add c d ∈ S)
    (hfar : ∀ c ∈ S, ¬ Adjacent c target) (hprevS : prev.point ∈ S) :
    ∀ (l : List Nat), (∀ j ∈ l, j < 8) → ∀ st, AStarInv source target check st →
      RegInS S st → regGet st.reg prevKey = some prev →
      RegInS S (l.foldl (AStarVisit check target los prevKey prev) st) ∧
      loopMeasure S (l.foldl (AStarVisit check target los prevKey prev) st) ≤
        loopMeasure S st := by
  intro l
  induction l with
  | nil =>
    intro _ st _ hS _
    exact ⟨hS, le_refl _⟩
  | cons j t ih =>
    intro hj st hinv hS hprev
    simp only [List.foldl_cons]
    obtain ⟨hinv2, hprev2⟩ := AStarInv_visit source target check los prevKey prev st j
      (hj j (List.mem_cons_self _ _)) hinv hprev
    obtain ⟨hS2, hm2⟩ := RegInS_visit S target check los prevKey prev st j
      (hj j (List.mem_cons_self _ _)) hclosed hfar hS hprevS
    obtain ⟨hS3, hm3⟩ := ih (fun x hx => hj x (List.mem_cons_of_mem _ hx)) _ hinv2 hS2 hprev2
    exact ⟨hS3, le_trans hm3 hm2⟩

/-- Walking a chain of free cells from an `S`-cell to the target produces an
`S`-cell adjacent to the target. -/
lemma chain_reach (S : List Int) (target : Int) (check : Int → Status)
    (hclosed : ∀ c ∈ S, ∀ d ∈ Direction.all,
      check (Point.add c d) ≠ Status.BLOCKED → Point.add c d ∈ S) :
    ∀ (l : List Int) (c : Int), c ∈ S → List.Chain' Adjacent (c :: l) →
      (∀ p ∈ l.dropLast, check p = Status.FREE) → l.getLast? = some target →
      ∃ c2 ∈ S, Adjacent c2 target := by
  intro l
  induction l with
  | nil =>
    intro c _ _ _ hlast
    simp at hlast
  | cons x xs ih =>
    intro c hc hchain hfree hlast
    obtain ⟨hcx, hchain2⟩ := List.chain'_cons.mp hchain
    cases xs with
    | nil =>
      have hx : x = target := by simpa using hlast
      exact ⟨c, hc, hx ▸ hcx⟩
    | cons y ys =>
      have hxS : x ∈ S := by
        obtain ⟨d, hd, hkey⟩ := hcx
        rw [hkey]
        refine hclosed _ hc d hd ?_
        rw [← hkey]
        have : check x = Status.FREE := by
          apply hfree
          simp [List.dropLast]
        rw [this]
        simp
      refine ih x hxS hchain2 ?_ ?_
      · intro p hp
        apply hfree
        rw [show (x :: y :: ys).dropLast = x :: (y :: ys).dropLast from rfl]
        exact List.mem_cons_of_mem _ hp
      · rw [← hlast]
        exact (List.getLast?_cons_cons).symm

/-- Under the unreachability hypotheses the line-of-sight shortcut cannot
fire: a fully free line would exhibit an `S`-cell adjacent to the target. -/
lemma los_not_free (source target : Int) (check : Int → Status) (S : List Int)
    (hsrc : source ∈ S)
    (hclosed : ∀ c ∈ S, ∀ d ∈ Direction.all,
      check (Point.add c d) ≠ Status.BLOCKED → Point.add c d ∈ S)
    (htgt : target ∉ S) (hfar : ∀ c ∈ S, ¬ Adjacent c target)
    (hfree : ∀ p ∈ ((LOS source target).drop 1).dropLast, check p = Status.FREE) :
    False := by
  obtain ⟨l, hl⟩ := LOS_cons source target
  have hdl : (LOS source target).drop 1 = l := by
    rw [hl]
    rfl
  by_cases hle : l = []
  · have h2 := LOS_last source target
    rw [hl, hle] at h2
    simp at h2
    exact htgt (h2 ▸ hsrc)
  · have hlast : l.getLast? = some target := by
      have h2 := LOS_last source target
      rw [hl, getLast?_cons_of_ne _ _ hle] at h2
      exact h2
    have hchain : List.Chain' Adjacent (source :: l) := by
      rw [← hl]
      exact LOS_chain _ _
    obtain ⟨c2, hc2, hadj⟩ := chain_reach S target check hclosed l source hsrc hchain
      (by rw [← hdl]; exact hfree) hlast
    exact hfar c2 hc2 hadj

/-- With nodup `S`, the registry never outgrows `S`. -/
lemma reg_length_le (S : List Int) (source target : Int) (check : Int → Status)
    (st : AStarState) (hS : S.Nodup) (hinv : AStarInv source target check st)
    (hreg : RegInS S st) : st.reg.length ≤ S.length := by
  have hsub : (st.reg.map Prod.fst) ⊆ S := by
    intro k hk
    obtain ⟨e, he, hke⟩ := List.mem_map.mp hk
    rw [← hke, hinv.keys_eq _ he]
    exact hreg _ he
  calc st.reg.length = (st.reg.map Prod.fst).length := (List.length_map _ _).symm
    _ ≤ S.length := nodup_subset_length _ _ hinv.keys_nodup hsub

/-- Measure is nonnegative whenever the invariants hold. -/
lemma loopMeasure_nonneg (S : List Int) (source target : Int) (check : Int → Status)
    (st : AStarState) (hS : S.Nodup) (hinv : AStarInv source target check st)
    (hreg : RegInS S st) : 0 ≤ loopMeasure S st := by
  have h := reg_length_le S source target check st hS hinv hreg
  unfold loopMeasure
  have h2 : (st.reg.length : Int) ≤ (S.length : Int) := by exact_mod_cast h
  have h3 : (0 : Int) ≤ st.heap.length := Int.ofNat_nonneg _
  omega

/-- When every cell reachable from the source without crossing BLOCKED cells
lies in a nodup set `S` that excludes the target and has no cell adjacent to
it, the fueled search loop runs to completion and reports no path. -/
lemma AStarLoop_terminates (S : List Int) (source target : Int)
    (check : Int → Status) (los : List Int) (hS : S.Nodup)
    (hclosed : ∀ c ∈ S, ∀ d ∈ Direction.all,
      check (Point.add c d) ≠ Status.BLOCKED → Point.add c d ∈ S)
    (htgt : target ∉ S) (hfar : ∀ c ∈ S, ¬ Adjacent c target) :
    ∀ (fuel : Nat) (st : AStarState) (record : List Int),
      AStarInv source target check st → RegInS S st →
      loopMeasure S st < fuel →
      ∃ rec2, AStarLoop check target los fuel st record = some (none, rec2) := by
  intro fuel
  induction fuel with
  | zero =>
    intro st record hinv hreg hlt
    exact absurd hlt (not_lt.mpr (loopMeasure_nonneg S source target check st hS hinv hreg))
  | succ f ih =>
    intro st record hinv hreg hlt
    unfold AStarLoop
    cases hh : st.heap with
    | nil =>
      exact ⟨record, rfl⟩
    | cons k0 krest =>
      dsimp only
      rw [← hh]
      have hne : st.heap ≠ [] := by rw [hh]; exact List.cons_ne_nil _ _
      have hidx : extractMinIndex (heapScores st.reg st.heap) < st.heap.length := by
        rw [hh]
        exact extractMinIndex_lt _ _ _
      have hpkmem : st.heap.getD (extractMinIndex (heapScores st.reg st.heap)) 0 ∈
          st.heap := by
        rw [List.getD_eq_getElem _ _ hidx]
        exact List.getElem_mem _
      obtain ⟨pn, hpn⟩ := Option.isSome_iff_exists.mp (hinv.heap_sub _ hpkmem)
      rw [hpn]
      simp only [Option.getD_some]
      have hpnS : pn.point ∈ S := hreg _ (regGet_some_mem _ _ _ hpn)
      have hpt : pn.point ≠ target := fun h => htgt (h ▸ hpnS)
      rw [if_neg hpt]
      have hinvPop := AStarInv_pop source target check st
        (extractMinIndex (heapScores st.reg st.heap)) hinv
      have hregPop : RegInS S ⟨st.reg,
          heapRemoveAt st.heap (extractMinIndex (heapScores st.reg st.heap))⟩ := hreg
      obtain ⟨hinv2, _⟩ := AStarInv_fold source target check los
        (st.heap.getD (extractMinIndex (heapScores st.reg st.heap)) 0) pn
        (List.range 8) (fun j hj => List.mem_range.mp hj)
        ⟨st.reg, heapRemoveAt st.heap (extractMinIndex (heapScores st.reg st.heap))⟩
        hinvPop hpn
      obtain ⟨hreg2, hm2⟩ := RegInS_fold S source target check los
        (st.heap.getD (extractMinIndex (heapScores st.reg st.heap)) 0) pn
        hclosed hfar hpnS
        (List.range 8) (fun j hj => List.mem_range.mp hj)
        ⟨st.reg, heapRemoveAt st.heap (extractMinIndex (heapScores st.reg st.heap))⟩
        hinvPop hregPop hpn
      refine ih _ _ hinv2 hreg2 ?_
      have hPopLen : (heapRemoveAt st.heap
          (extractMinIndex (heapScores st.reg st.heap))).length + 1 =
          st.heap.length := heapRemoveAt_length _ _ hne
      have hmPop : loopMeasure S ⟨st.reg,
          heapRemoveAt st.heap (extractMinIndex (heapScores st.reg st.heap))⟩ =
          loopMeasure S st - 1 := by
        unfold loopMeasure
        dsimp only
        have : ((heapRemoveAt st.heap
            (extractMinIndex (heapScores st.reg st.heap))).length : Int) + 1 =
            (st.heap.length : Int) := by exact_mod_cast hPopLen
        omega
      rw [hmPop] at hm2
      omega

/-- C3 (counterexample): with every cell BLOCKED, the set of non-BLOCKED
cells reachable from the source is empty (finite, and excludes the target),
yet `AStar((0,0), (1,1))` returns a present path `[(1,1)]` through the
line-of-sight shortcut instead of the absent result. -/
theorem C3_astar_unreachable_counterexample :
    (∀ p : Int, (fun _ : Int => Status.BLOCKED) p = Status.BLOCKED) ∧
    AStar (Point.make 0 0) (Point.make 1 1) (fun _ => Status.BLOCKED) 1 =
      some (some [Point.make 1 1], []) := by
  exact ⟨fun _ => rfl, by decide⟩

/-- C3 (amended): if a finite duplicate-free set `S` contains the source, is
closed under single-step moves to non-BLOCKED cells, excludes the target,
and moreover no cell of `S` is adjacent to the target, then `AStar` halts
within `2·|S| + 2` loop iterations and returns the absent result. -/
theorem C3_astar_unreachable_amended (S : List Int) (source target : Int)
    (check : Int → Status) (hS : S.Nodup) (hsrc : source ∈ S)
    (hclosed : ∀ c ∈ S, ∀ d ∈ Direction.all,
      check (Point.add c d) ≠ Status.BLOCKED → Point.add c d ∈ S)
    (htgt : target ∉ S) (hfar : ∀ c ∈ S, ¬ Adjacent c target) :
    ∃ rec2, AStar source target check (2 * S.length + 2) = some (none, rec2) := by
  by_cases hfree : ∀ p ∈ ((LOS source target).drop 1).dropLast, check p = Status.FREE
  · exact absurd hfree
      (fun h => los_not_free source target check S hsrc hclosed htgt hfar h)
  · have hinv := AStarInv_init source target check
      (AStarHeuristic source (LOS source target))
    have hreg : RegInS S ⟨[(Point.key source,
        ⟨source, none, 0, 0, AStarHeuristic source (LOS source target)⟩)],
        [Point.key source]⟩ := by
      intro e he
      rw [List.mem_singleton.mp he]
      exact hsrc
    have hlt : loopMeasure S ⟨[(Point.key source,
        ⟨source, none, 0, 0, AStarHeuristic source (LOS source target)⟩)],
        [Point.key source]⟩ < ((2 * S.length + 2 : Nat) : Int) := by
      unfold loopMeasure
      simp only [List.length_singleton]
      push_cast
      omega
    obtain ⟨rec2, hloop⟩ := AStarLoop_terminates S source target check
      (LOS source target) hS hclosed htgt hfar (2 * S.length + 2)
      ⟨[(Point.key source,
        ⟨source, none, 0, 0, AStarHeuristic source (LOS source target)⟩)],
        [Point.key source]⟩ [] hinv hreg hlt
    refine ⟨rec2, ?_⟩
    unfold AStar
    rw [if_neg hfree]
    exact hloop

theorem C3_astar_unreachable_amended_witness :
    ∃ rec2, AStar (Point.make 0 0) (Point.make 3 0) (fun _ => Status.BLOCKED)
      (2 * [Point.make 0 0].length + 2) = some (none, rec2) :=
  C3_astar_unreachable_amended [Point.make 0 0] (Point.make 0 0) (Point.make 3 0)
    (fun _ => Status.BLOCKED) (by decide) (by decide) (by decide) (by decide)
    (by decide)

/-- The eight cells adjacent to the source, indexed by direction. -/
def srcCell (source : Int) (j : Nat) : Int :=
  Point.add source (Direction.all.getD j 0)

/-- Once the source has been expanded, each source-adjacent cell either
holds a registry node whose direction bit towards it is set, or is an
unregistered BLOCKED non-target cell (and so can never be registered). -/
def cellProp (source target : Int) (check : Int → Status) (reg : AStarReg)
    (j : Nat) : Prop :=
  (∃ n, regGet reg (srcCell source j) = some n ∧ n.bits &&& (1 <<< j) ≠ 0) ∨
  (regGet reg (srcCell source j) = none ∧ srcCell source j ≠ target ∧
    check (srcCell source j) = Status.BLOCKED)

def InvC9 (source target : Int) (check : Int → Status) (reg : AStarReg) : Prop :=
  ∀ j : Nat, j < 8 → cellProp source target check reg j

lemma bit_mask_iff (a j : Nat) : a &&& (1 <<< j) ≠ 0 ↔ a.testBit j := by
  rw [Nat.one_shiftLeft, Nat.and_two_pow]
  cases h : a.testBit j <;> simp [h, (Nat.two_pow_pos j).ne']

lemma bits_or_keep (a b j : Nat) (h : a &&& (1 <<< j) ≠ 0) :
    (a ||| b) &&& (1 <<< j) ≠ 0 := by
  rw [bit_mask_iff] at h ⊢
  rw [Nat.testBit_or, h]
  rfl

lemma bits_or_self (a j : Nat) : (a ||| (1 <<< j)) &&& (1 <<< j) ≠ 0 := by
  rw [bit_mask_iff, Nat.testBit_or, Nat.one_shiftLeft, Nat.testBit_two_pow_self]
  simp

lemma bits_self_ne (j : Nat) : (1 <<< j : Nat) &&& (1 <<< j) ≠ 0 := by
  rw [bit_mask_iff, Nat.one_shiftLeft]
  exact Nat.testBit_two_pow_self

/-- Exact description of one expansion step, identifying the visited key as
`Point.add prev.point direction`. -/
lemma AStarVisit_precise (check : Int → Status) (target : Int) (los : List Int)
    (prevKey : Int) (prev : AStarNode) (st : AStarState) (i : Nat) :
    (AStarVisit check target los prevKey prev st i = st ∧
      prev.bits &&& (1 <<< ((i + 4) % 8)) ≠ 0) ∨
    (AStarVisit check target los prevKey prev st i = st ∧
      Point.add prev.point (Direction.all.getD i 0) ≠ target ∧
      check (Point.add prev.point (Direction.all.getD i 0)) = Status.BLOCKED) ∨
    (∃ e n, regGet st.reg (Point.add prev.point (Direction.all.getD i 0)) = some e ∧
      n.bits = e.bits ||| (1 <<< i) ∧
      (AStarVisit check target los prevKey prev st i).reg =
        regUpd st.reg (Point.add prev.point (Direction.all.getD i 0)) n ∧
      (AStarVisit check target los prevKey prev st i).heap = st.heap) ∨
    (∃ n, regGet st.reg (Point.add prev.point (Direction.all.getD i 0)) = none ∧
      n.bits = 1 <<< i ∧
      (AStarVisit check target los prevKey prev st i).reg =
        regSet st.reg (Point.add prev.point (Direction.all.getD i 0)) n ∧
      (Point.add prev.point (Direction.all.getD i 0) = target ∨
        check (Point.add prev.point (Direction.all.getD i 0)) ≠ Status.BLOCKED)) := by
  by_cases h1 : prev.bits &&& (1 <<< ((i + 4) % 8)) ≠ 0
  · left
    refine ⟨?_, h1⟩
    unfold AStarVisit
    dsimp only
    rw [if_pos h1]
  · by_cases h2 : (if Point.add prev.point (Direction.all.getD i 0) = target
        then Status.FREE
        else check (Point.add prev.point (Direction.all.getD i 0))) = Status.BLOCKED
    · right
      left
      by_cases hq : Point.add prev.point (Direction.all.getD i 0) = target
      · rw [if_pos hq] at h2
        exact absurd h2 (by decide)
      · rw [if_neg hq] at h2
        refine ⟨?_, hq, h2⟩
        unfold AStarVisit
        dsimp only
        rw [if_neg h1, if_pos (by rw [if_neg hq]; exact h2)]
    · have htest : Point.add prev.point (Direction.all.getD i 0) = target ∨
          check (Point.add prev.point (Direction.all.getD i 0)) ≠ Status.BLOCKED := by
        by_cases hq : Point.add prev.point (Direction.all.getD i 0) = target
        · exact Or.inl hq
        · rw [if_neg hq] at h2
          exact Or.inr h2
      cases hreg : regGet st.reg
          (Point.key (Point.add prev.point (Direction.all.getD i 0))) with
      | some e =>
        right
        right
        left
        refine ⟨e, ?_⟩
        unfold AStarVisit
        dsimp only
        rw [if_neg h1, if_neg h2]
        rw [hreg]
        dsimp only
        by_cases hle : e.distance ≤ prev.distance + AStarUnitCost +
            (if i % 2 ≠ 0 then AStarDiagonalPenalty else 0) +
            (if (if Point.add prev.point (Direction.all.getD i 0) = target
                then Status.FREE
                else check (Point.add prev.point (Direction.all.getD i 0))) =
                Status.OCCUPIED then AStarOccupiedPenalty else 0)
        · rw [if_pos hle]
          exact ⟨⟨e.point, e.parent, e.bits ||| (1 <<< i), e.distance, e.score⟩,
            hreg, rfl, rfl, rfl⟩
        · rw [if_neg hle]
          exact ⟨⟨e.point, some prevKey, e.bits ||| (1 <<< i),
            prev.distance + AStarUnitCost +
              (if i % 2 ≠ 0 then AStarDiagonalPenalty else 0) +
              (if (if Point.add prev.point (Direction.all.getD i 0) = target
                  then Status.FREE
                  else check (Point.add prev.point (Direction.all.getD i 0))) =
                  Status.OCCUPIED then AStarOccupiedPenalty else 0),
            e.score +
              (prev.distance + AStarUnitCost +
                (if i % 2 ≠ 0 then AStarDiagonalPenalty else 0) +
                (if (if Point.add prev.point (Direction.all.getD i 0) = target
                    then Status.FREE
                    else check (Point.add prev.point (Direction.all.getD i 0))) =
                    Status.OCCUPIED then AStarOccupiedPenalty else 0) -
                e.distance)⟩, hreg, rfl, rfl, rfl⟩
      | none =>
        right
        right
        right
        refine ⟨⟨Point.add prev.point (Direction.all.getD i 0), some prevKey, 1 <<< i,
          prev.distance + AStarUnitCost +
            (if i % 2 ≠ 0 then AStarDiagonalPenalty else 0) +
            (if (if Point.add prev.point (Direction.all.getD i 0) = target
                then Status.FREE
                else check (Point.add prev.point (Direction.all.getD i 0))) =
                Status.OCCUPIED then AStarOccupiedPenalty else 0),
          prev.distance + AStarUnitCost +
            (if i % 2 ≠ 0 then AStarDiagonalPenalty else 0) +
            (if (if Point.add prev.point (Direction.all.getD i 0) = target
                then Status.FREE
                else check (Point.add prev.point (Direction.all.getD i 0))) =
                Status.OCCUPIED then AStarOccupiedPenalty else 0) +
            AStarHeuristic (Point.add prev.point (Direction.all.getD i 0)) los⟩,
          hreg, rfl, ?_, htest⟩
        unfold AStarVisit
        dsimp only
        rw [if_neg h1, if_neg h2]
        rw [hreg]
        rfl

/-- A visit only touches the registry at the visited key. -/
lemma regGet_visit_ne (check : Int → Status) (target : Int) (los : List Int)
    (prevKey : Int) (prev : AStarNode) (st : AStarState) (i : Nat) (q : Int)
    (hq : q ≠ Point.add prev.point (Direction.all.getD i 0)) :
    regGet (AStarVisit check target los prevKey prev st i).reg q =
      regGet st.reg q := by
  rcases AStarVisit_precise check target los prevKey prev st i with
    ⟨hEq, _⟩ | ⟨hEq, _, _⟩ | ⟨e, n, hreg, _, hregEq, _⟩ | ⟨n, hreg, _, hregEq, _⟩
  · rw [hEq]
  · rw [hEq]
  · rw [hregEq, regGet_regUpd, if_neg hq]
  · rw [hregEq, regGet_regSet]
    cases hg : regGet st.reg q with
    | some m => rfl
    | none => rw [if_neg hq]

/-- `cellProp` is preserved by any expansion step. -/
lemma cellProp_visit (source target : Int) (check : Int → Status) (los : List Int)
    (prevKey : Int) (prev : AStarNode) (st : AStarState) (i j : Nat)
    (h : cellProp source target check st.reg j) :
    cellProp source target check
      (AStarVisit check target los prevKey prev st i).reg j := by
  by_cases hq : srcCell source j = Point.add prev.point (Direction.all.getD i 0)
  · rcases AStarVisit_precise check target los prevKey prev st i with
      ⟨hEq, _⟩ | ⟨hEq, _, _⟩ | ⟨e, n, hreg, hbits, hregEq, _⟩ | ⟨n, hreg, _, hregEq, hstat⟩
    · rw [hEq]
      exact h
    · rw [hEq]
      exact h
    · rcases h with ⟨m, hm, hbit⟩ | ⟨hnone, _, _⟩
      · left
        refine ⟨n, ?_, ?_⟩
        · rw [hregEq, regGet_regUpd, if_pos hq, hreg]
          rfl
        · rw [hq, hreg] at hm
          have hme : m = e := (Option.some.inj hm).symm
          rw [hme] at hbit
          rw [hbits]
          exact bits_or_keep _ _ _ hbit
      · rw [hq, hreg] at hnone
        exact absurd hnone (by simp)
    · rcases h with ⟨m, hm, _⟩ | ⟨_, hnt, hblk⟩
      · rw [hq, hreg] at hm
        exact absurd hm (by simp)
      · rw [hq] at hnt hblk
        rcases hstat with h' | h'
        · exact absurd h' hnt
        · exact absurd hblk h'
  · have hne := regGet_visit_ne check target los prevKey prev st i (srcCell source j) hq
    rcases h with ⟨m, hm, hbit⟩ | ⟨hnone, hnt, hblk⟩
    · exact Or.inl ⟨m, by rw [hne]; exact hm, hbit⟩
    · exact Or.inr ⟨by rw [hne]; exact hnone, hnt, hblk⟩

/-- `cellProp` is preserved by the whole expansion fold. -/
lemma cellProp_fold (source target : Int) (check : Int → Status) (los : List Int)
    (prevKey : Int) (prev : AStarNode) (j : Nat) :
    ∀ (l : List Nat) (st : AStarState), cellProp source target check st.reg j →
      cellProp source target check
        ((l.foldl (AStarVisit check target los prevKey prev) st).reg) j := by
  intro l
  induction l with
  | nil =>
    intro st h
    exact h
  | cons i t ih =>
    intro st h
    rw [List.foldl_cons]
    exact ih _ (cellProp_visit source target check los prevKey prev st i j h)

/-- Expanding the source itself in direction `i` establishes `cellProp i`. -/
lemma cellProp_visit_self (source target : Int) (check : Int → Status) (los : List Int)
    (prevKey : Int) (prev : AStarNode) (st : AStarState) (i : Nat)
    (hpt : prev.point = source) (hbits0 : prev.bits = 0)
    (hpre : regGet st.reg (srcCell source i) = none ∨
      cellProp source target check st.reg i) :
    cellProp source target check
      (AStarVisit check target los prevKey prev st i).reg i := by
  have hcell : srcCell source i = Point.add prev.point (Direction.all.getD i 0) := by
    rw [srcCell, hpt]
  rcases AStarVisit_precise check target los prevKey prev st i with
    ⟨hEq, hskip⟩ | ⟨hEq, hnt, hblk⟩ | ⟨e, n, hreg, hbits, hregEq, _⟩ |
    ⟨n, hreg, hbits, hregEq, hstat⟩
  · rw [hbits0] at hskip
    exact absurd (Nat.zero_and _) hskip
  · rw [hEq]
    rcases hpre with hnone | hcp
    · exact Or.inr ⟨hnone, by rw [hcell]; exact hnt, by rw [hcell]; exact hblk⟩
    · exact hcp
  · left
    refine ⟨n, ?_, ?_⟩
    · rw [hregEq, regGet_regUpd, if_pos hcell, hreg]
      rfl
    · rw [hbits]
      exact bits_or_self _ _
  · left
    refine ⟨n, ?_, ?_⟩
    · rw [hregEq, hcell]
      exact regGet_regSet_self _ _ _ hreg
    · rw [hbits]
      exact bits_self_ne _

/-- Distinct direction indices give distinct source-adjacent cells. -/
lemma srcCell_ne (source : Int) (j i : Nat) (hj : j < 8) (hi : i < 8) (hne : j ≠ i) :
    srcCell source j ≠ srcCell source i := by
  unfold srcCell Point.add
  have hd : Direction.all.getD j 0 ≠ Direction.all.getD i 0 := by
    interval_cases j <;> interval_cases i <;> first | exact absurd rfl hne | decide
  omega

/-- Direction `(i + 4) % 8` is the exact opposite of direction `i`. -/
lemma dir_opp (i : Nat) (hi : i < 8) :
    Direction.all.getD i 0 + Direction.all.getD ((i + 4) % 8) 0 = 2 * kOrigin := by
  interval_cases i <;> decide

/-- If stepping in direction `i` from a node lands on the source, the node
sits on the source-adjacent cell of the opposite direction. -/
lemma prev_point_of_next_src (source p : Int) (i : Nat) (hi : i < 8)
    (h : Point.add p (Direction.all.getD i 0) = source) :
    p = srcCell source ((i + 4) % 8) := by
  have hopp := dir_opp i hi
  unfold Point.add at h
  unfold srcCell Point.add
  omega

/-- Two classifiers that agree away from the source produce the same
expansion step whenever stepping onto the source is bit-skipped. -/
lemma AStarVisit_congr (source target : Int) (c1 c2 : Int → Status) (los : List Int)
    (prevKey : Int) (prev : AStarNode) (st : AStarState) (i : Nat)
    (hagree : ∀ q, q ≠ source → c1 q = c2 q)
    (hsafe : Point.add prev.point (Direction.all.getD i 0) = source →
      prev.bits &&& (1 <<< ((i + 4) % 8)) ≠ 0) :
    AStarVisit c1 target los prevKey prev st i =
      AStarVisit c2 target los prevKey prev st i := by
  by_cases h1 : prev.bits &&& (1 <<< ((i + 4) % 8)) ≠ 0
  · unfold AStarVisit
    dsimp only
    rw [if_pos h1, if_pos h1]
  · have hns : Point.add prev.point (Direction.all.getD i 0) ≠ source :=
      fun h => h1 (hsafe h)
    have hc : c1 (Point.add prev.point (Direction.all.getD i 0)) =
        c2 (Point.add prev.point (Direction.all.getD i 0)) := hagree _ hns
    unfold AStarVisit
    dsimp only
    rw [hc]

/-- The expansion fold is classifier-independent under the same guard. -/
lemma fold_congr (source target : Int) (c1 c2 : Int → Status) (los : List Int)
    (prevKey : Int) (prev : AStarNode)
    (hagree : ∀ q, q ≠ source → c1 q = c2 q)
    (hsafe : ∀ i : Nat, i < 8 → Point.add prev.point (Direction.all.getD i 0) = source →
      prev.bits &&& (1 <<< ((i + 4) % 8)) ≠ 0) :
    ∀ (l : List Nat), (∀ i ∈ l, i < 8) → ∀ (st : AStarState),
      l.foldl (AStarVisit c1 target los prevKey prev) st =
      l.foldl (AStarVisit c2 target los prevKey prev) st := by
  intro l
  induction l with
  | nil =>
    intro _ st
    rfl
  | cons i t ih =>
    intro hb st
    rw [List.foldl_cons, List.foldl_cons,
      AStarVisit_congr source target c1 c2 los prevKey prev st i hagree
        (hsafe i (hb i (List.mem_cons_self _ _)))]
    exact ih (fun x hx => hb x (List.mem_cons_of_mem _ hx)) _

/-- Folding all eight directions from the source node establishes
`cellProp` at every processed index. -/
lemma fold_establish (source target : Int) (check : Int → Status) (los : List Int)
    (prevKey : Int) (prev : AStarNode) (hpt : prev.point = source)
    (hbits0 : prev.bits = 0) :
    ∀ (l : List Nat), l.Nodup → (∀ j ∈ l, j < 8) →
      ∀ st : AStarState, (∀ j ∈ l, regGet st.reg (srcCell source j) = none) →
      ∀ j ∈ l, cellProp source target check
        ((l.foldl (AStarVisit check target los prevKey prev) st).reg) j := by
  intro l
  induction l with
  | nil =>
    intro _ _ st _ j hj
    exact absurd hj (List.not_mem_nil _)
  | cons i t ih =>
    intro hnd hb st hnone j hj
    rw [List.foldl_cons]
    rcases List.mem_cons.mp hj with hj | hj
    · subst hj
      refine cellProp_fold source target check los prevKey prev j t _ ?_
      exact cellProp_visit_self source target check los prevKey prev st j hpt hbits0
        (Or.inl (hnone j (List.mem_cons_self _ _)))
    · refine ih (List.Nodup.of_cons hnd) (fun x hx => hb x (List.mem_cons_of_mem _ hx))
        _ ?_ j hj
      intro k hk
      rw [regGet_visit_ne check target los prevKey prev st i (srcCell source k) ?_]
      · exact hnone k (List.mem_cons_of_mem _ hk)
      · rw [← hpt] at *
        show srcCell prev.point k ≠ Point.add prev.point (Direction.all.getD i 0)
        have hki : k ≠ i := fun h =>
          (List.nodup_cons.mp hnd).1 (h ▸ hk)
        exact srcCell_ne prev.point k i (hb k (List.mem_cons_of_mem _ hk))
          (hb i (List.mem_cons_self _ _)) hki

/-- Once the post-source invariant holds, the search loop is independent of
the classifier's value at the source. -/
lemma AStarLoop_congr (source target : Int) (c1 c2 : Int → Status) (los : List Int)
    (hagree : ∀ q, q ≠ source → c1 q = c2 q) :
    ∀ (fuel : Nat) (st : AStarState) (record : List Int),
      AStarInv source target c1 st → InvC9 source target c1 st.reg →
      AStarLoop c1 target los fuel st record =
        AStarLoop c2 target los fuel st record := by
  intro fuel
  induction fuel with
  | zero =>
    intro st record _ _
    rfl
  | succ f ih =>
    intro st record hinv hinv9
    unfold AStarLoop
    cases hh : st.heap with
    | nil =>
      rfl
    | cons k0 krest =>
      dsimp only
      rw [← hh]
      have hidx : extractMinIndex (heapScores st.reg st.heap) < st.heap.length := by
        rw [hh]
        exact extractMinIndex_lt _ _ _
      have hpkmem : st.heap.getD (extractMinIndex (heapScores st.reg st.heap)) 0 ∈
          st.heap := by
        rw [List.getD_eq_getElem _ _ hidx]
        exact List.getElem_mem _
      obtain ⟨pn, hpn⟩ := Option.isSome_iff_exists.mp (hinv.heap_sub _ hpkmem)
      rw [hpn]
      simp only [Option.getD_some]
      by_cases hpt : pn.point = target
      · rw [if_pos hpt, if_pos hpt]
      · rw [if_neg hpt, if_neg hpt]
        have hpk : st.heap.getD (extractMinIndex (heapScores st.reg st.heap)) 0 =
            pn.point := hinv.keys_eq _ (regGet_some_mem _ _ _ hpn)
        have hsafe : ∀ i : Nat, i < 8 →
            Point.add pn.point (Direction.all.getD i 0) = source →
            pn.bits &&& (1 <<< ((i + 4) % 8)) ≠ 0 := by
          intro i hi hsrc
          have hj8 : (i + 4) % 8 < 8 := Nat.mod_lt _ (by norm_num)
          have hpp : pn.point = srcCell source ((i + 4) % 8) :=
            prev_point_of_next_src source pn.point i hi hsrc
          rcases hinv9 ((i + 4) % 8) hj8 with ⟨n, hn, hbit⟩ | ⟨hnone, _, _⟩
          · rw [← hpp, ← hpk, hpn] at hn
            rw [Option.some.inj hn]
            exact hbit
          · rw [← hpp, ← hpk, hpn] at hnone
            exact absurd hnone (by simp)
        have hfold := fold_congr source target c1 c2 los
          (st.heap.getD (extractMinIndex (heapScores st.reg st.heap)) 0) pn
          hagree hsafe (List.range 8) (fun i hi => List.mem_range.mp hi)
          ⟨st.reg, heapRemoveAt st.heap (extractMinIndex (heapScores st.reg st.heap))⟩
        rw [← hfold]
        obtain ⟨hinv2, _⟩ := AStarInv_fold source target c1 los
          (st.heap.getD (extractMinIndex (heapScores st.reg st.heap)) 0) pn
          (List.range 8) (fun j hj => List.mem_range.mp hj)
          ⟨st.reg, heapRemoveAt st.heap (extractMinIndex (heapScores st.reg st.heap))⟩
          (AStarInv_pop source target c1 st _ hinv) hpn
        refine ih _ _ hinv2 ?_
        intro j hj
        exact cellProp_fold source target c1 los
          (st.heap.getD (extractMinIndex (heapScores st.reg st.heap)) 0) pn j
          (List.range 8)
          ⟨st.reg, heapRemoveAt st.heap (extractMinIndex (heapScores st.reg st.heap))⟩
          (hinv9 j hj)

/-- From the initial state the search loop is independent of the
classifier's value at the source. -/
lemma AStarLoop_congr_init (source target : Int) (c1 c2 : Int → Status)
    (los : List Int) (score : Int) (hagree : ∀ q, q ≠ source → c1 q = c2 q) :
    ∀ (fuel : Nat) (record : List Int),
      AStarLoop c1 target los fuel
        ⟨[(Point.key source, ⟨source, none, 0, 0, score⟩)], [Point.key source]⟩
        record =
      AStarLoop c2 target los fuel
        ⟨[(Point.key source, ⟨source, none, 0, 0, score⟩)], [Point.key source]⟩
        record := by
  intro fuel record
  cases fuel with
  | zero => rfl
  | succ f =>
    unfold AStarLoop
    dsimp only
    have hidx : extractMinIndex (heapScores
        [(Point.key source, (⟨source, none, 0, 0, score⟩ : AStarNode))]
        [Point.key source]) = 0 := by
      have h := extractMinIndex_lt
        [(Point.key source, (⟨source, none, 0, 0, score⟩ : AStarNode))]
        (Point.key source) []
      simp only [List.length_singleton] at h
      omega
    rw [hidx]
    simp only [List.getD_cons_zero]
    have hg : regGet [(Point.key source, (⟨source, none, 0, 0, score⟩ : AStarNode))]
        (Point.key source) = some ⟨source, none, 0, 0, score⟩ :=
      lookup_cons_eq _ _ _ _ rfl
    rw [hg]
    simp only [Option.getD_some]
    by_cases hst : source = target
    · rw [if_pos hst, if_pos hst]
    · rw [if_neg hst, if_neg hst]
      have hfold := fold_congr source target c1 c2 los (Point.key source)
        ⟨source, none, 0, 0, score⟩ hagree
        (fun i hi h => absurd h (add_dir_ne source i hi))
        (List.range 8) (fun i hi => List.mem_range.mp hi)
        ⟨[(Point.key source, ⟨source, none, 0, 0, score⟩)],
          heapRemoveAt [Point.key source] 0⟩
      rw [← hfold]
      obtain ⟨hinv2, _⟩ := AStarInv_fold source target c1 los (Point.key source)
        ⟨source, none, 0, 0, score⟩
        (List.range 8) (fun j hj => List.mem_range.mp hj)
        ⟨[(Point.key source, ⟨source, none, 0, 0, score⟩)],
          heapRemoveAt [Point.key source] 0⟩
        (AStarInv_pop source target c1
          ⟨[(Point.key source, ⟨source, none, 0, 0, score⟩)], [Point.key source]⟩ 0
          (AStarInv_init source target c1 score)) hg
      refine AStarLoop_congr source target c1 c2 los hagree f _ _ hinv2 ?_
      intro j hj
      refine fold_establish source target c1 los (Point.key source)
        ⟨source, none, 0, 0, score⟩ rfl rfl (List.range 8) (List.nodup_range 8)
        (fun x hx => List.mem_range.mp hx)
        ⟨[(Point.key source, ⟨source, none, 0, 0, score⟩)],
          heapRemoveAt [Point.key source] 0⟩ ?_ j (List.mem_range.mpr hj)
      intro k hk
      have hne : srcCell source k ≠ Point.key source :=
        add_dir_ne source k (List.mem_range.mp hk)
      show List.lookup (srcCell source k)
        [(Point.key source, (⟨source, none, 0, 0, score⟩ : AStarNode))] = none
      rw [lookup_cons_ne _ _ _ _ hne]
      rfl

/-- C9: `AStar` never consults the classifier at the source cell — for any
two classifiers that agree on every point except possibly the source, the
whole result (path and visitation record) is identical. -/
theorem C9_astar_source_blind (source target : Int) (c1 c2 : Int → Status)
    (fuel : Nat) (hagree : ∀ q, q ≠ source → c1 q = c2 q) :
    AStar source target c1 fuel = AStar source target c2 fuel := by
  have hcond : (∀ p ∈ ((LOS source target).drop 1).dropLast, c1 p = Status.FREE) ↔
      (∀ p ∈ ((LOS source target).drop 1).dropLast, c2 p = Status.FREE) := by
    constructor <;> intro h p hp
    · rw [← hagree p (LOS_drop_ne source target p (List.dropLast_subset _ hp))]
      exact h p hp
    · rw [hagree p (LOS_drop_ne source target p (List.dropLast_subset _ hp))]
      exact h p hp
  unfold AStar
  by_cases hfree : ∀ p ∈ ((LOS source target).drop 1).dropLast, c1 p = Status.FREE
  · rw [if_pos hfree, if_pos (hcond.mp hfree)]
  · rw [if_neg hfree, if_neg (fun h => hfree (hcond.mpr h))]
    exact AStarLoop_congr_init source target c1 c2 (LOS source target)
      (AStarHeuristic source (LOS source target)) hagree fuel []

theorem C9_astar_source_blind_witness :
    AStar (Point.make 0 0) (Point.make 2 0) (fun _ => Status.FREE) 5 =
      AStar (Point.make 0 0) (Point.make 2 0)
        (fun p => if p = Point.make 0 0 then Status.BLOCKED else Status.FREE) 5 :=
  C9_astar_source_blind (Point.make 0 0) (Point.make 2 0) _ _ 5
    (fun q hq => (if_neg hq).symm)

example : LOS (Point.make 0 0) (Point.make 2 1) =
    [Point.make 0 0, Point.make 1 0, Point.make 2 1] := by decide

example : LOS (Point.make 2 1) (Point.make 0 0) =
    [Point.make 2 1, Point.make 1 1, Point.make 0 0] := by decide

example : LOS (Point.make 0 0) (Point.make 0 0) = [Point.make 0 0] := by decide

example : LOS (Point.make 0 0) (Point.make 1 (-3)) =
    [Point.make 0 0, Point.make 0 (-1), Point.make 1 (-2), Point.make 1 (-3)] := by
  decide

end Geo
